import Mathlib

/-!
Verification of the `solsmt` SMTLib2 front end (`tools/solsmt.cpp`).

The development shallowly embeds the three layers of the tool:

* the recursive-descent S-expression reader `SMTLib2Parser`
  (`parseExpression`, `parseToken`, `skipWhitespace`), modelled both on
  the remaining-input list (`parseExprF`) and, for the restartability
  property, on the original `(m_data, m_pos)` representation
  (`parseExprPos`);
* the sort elaborator `toSMTUtilExpression` together with its numeric
  literal helper `parseRational`;
* the driver loop of `main` (`dispatch`, `runF`, `solsmtRun`) with the
  external solver abstracted as a trace of `SolverCall`s.

C++ failure modes are made explicit: `solAssert` failures, bad variant
accesses of `std::get`, and missing-key `map::at` all abort the run with
a "clean" exception and are modelled as `CErr.malformed`
(`CErr.unknownCommand` for the unknown-instruction `solAssert`), while
`front()`/`back()` on an empty container is undefined behaviour and is
modelled as the distinct `CErr.outOfBounds`.
-/

/-- Modelled from the spec: `langutil::isWhiteSpace` (liblangutil/Common.h,
not under src/) — the fixed whitespace-character predicate: space, newline,
tab and carriage return. -/
def isWhiteSpaceChar (c : Char) : Bool :=
  c = ' ' || c = '\n' || c = '\t' || c = '\r'

/-- Modelled from the spec: `langutil::isDigit` (liblangutil/Common.h, not
under src/) — decimal digits. -/
def isDigitChar (c : Char) : Bool :=
  '0' ≤ c && c ≤ '9'

/-- `SMTLib2Expression`: `data` is a
`variant<string_view, vector<SMTLib2Expression>>`. -/
inductive SExpr where
  | atom (s : String)
  | list (xs : List SExpr)
deriving Repr, Inhabited

/-- The NUL sentinel that `SMTLib2Parser::token()` returns at end of input. -/
def nulChar : Char := Char.ofNat 0

/-- `SMTLib2Parser::skipWhitespace`, on the remaining input. -/
def skipWs : List Char → List Char
  | [] => []
  | c :: t => if isWhiteSpaceChar c then skipWs t else c :: t

/-- The non-pipe arm of the `parseToken` loop: consume characters until
whitespace, `(` or `)` (exclusive) or end of input. -/
def takePlain : List Char → List Char × List Char
  | [] => ([], [])
  | c :: t =>
      if isWhiteSpaceChar c || c = '(' || c = ')' then ([], c :: t)
      else
        let p := takePlain t
        (c :: p.1, p.2)

/-- The pipe arm of the `parseToken` loop, after the opening `|` has been
consumed: consume up to and including the next `|`, or to end of input. -/
def takePipeBody : List Char → List Char × List Char
  | [] => ([], [])
  | c :: t =>
      if c = '|' then ([c], t)
      else
        let p := takePipeBody t
        (c :: p.1, p.2)

/-- `SMTLib2Parser::parseToken`, on the remaining input: skip whitespace,
then read one atom (pipe-quoted if its first character is `|`). -/
def parseToken (l : List Char) : List Char × List Char :=
  match skipWs l with
  | [] => ([], [])
  | c :: t =>
      if c = '|' then
        let p := takePipeBody t
        (c :: p.1, p.2)
      else takePlain (c :: t)

/-- `if (token() == ')') advance();` after the sub-expression loop. -/
def dropParen (l : List Char) : List Char :=
  if l.head? = some ')' then l.tail else l

mutual
/-- `SMTLib2Parser::parseExpression`, on the remaining input, with a fuel
argument that makes the recursion structural (`parseExpression` is the
canonical-fuel wrapper). -/
def parseExprF : Nat → List Char → SExpr × List Char
  | 0, l => (.atom "", l)
  | fuel + 1, l =>
      let l1 := skipWs l
      if l1.head? = some '(' then
        let p := parseListF fuel l1.tail
        (.list p.1, dropParen p.2)
      else
        let p := parseToken l1
        (.atom (String.mk p.1), p.2)

/-- The `while (token() != 0 && token() != ')')` sub-expression loop of
`parseExpression`; it stops at end of input, at `)` and at a NUL character
(`token() == 0` conflates the two). -/
def parseListF : Nat → List Char → List SExpr × List Char
  | 0, l => ([], l)
  | fuel + 1, l =>
      match l with
      | [] => ([], [])
      | c :: t =>
          if c = ')' || c = nulChar then ([], c :: t)
          else
            let p := parseExprF fuel (c :: t)
            let q := parseListF fuel (skipWs p.2)
            (p.1 :: q.1, q.2)
end

/-- One `parseExpression` call of a freshly constructed parser on the given
remaining input; returns the parsed node and `remainingInput()`. -/
def parseExpression (l : List Char) : SExpr × List Char :=
  parseExprF (2 * l.length + 1) l

/-- The sub-expression loop run on the input following an opening `(`. -/
def parseListRun (l : List Char) : List SExpr × List Char :=
  parseListF (2 * l.length + 2) l

theorem skipWs_suffix (l : List Char) : skipWs l <:+ l := by
  induction l with
  | nil => exact List.suffix_rfl
  | cons c t ih =>
      by_cases h : isWhiteSpaceChar c
      · simpa [skipWs, h] using ih.trans (List.suffix_cons c t)
      · simp [skipWs, h]

theorem skipWs_length (l : List Char) : (skipWs l).length ≤ l.length :=
  (skipWs_suffix l).length_le

theorem skipWs_idem (l : List Char) : skipWs (skipWs l) = skipWs l := by
  induction l with
  | nil => simp [skipWs]
  | cons c t ih =>
      by_cases h : isWhiteSpaceChar c
      · simpa [skipWs, h] using ih
      · simp [skipWs, h]

theorem takePlain_suffix (l : List Char) : (takePlain l).2 <:+ l := by
  induction l with
  | nil => exact List.suffix_rfl
  | cons c t ih =>
      by_cases h : isWhiteSpaceChar c || c = '(' || c = ')'
      · simp [takePlain, h]
      · simpa [takePlain, h] using ih.trans (List.suffix_cons c t)

theorem takePipeBody_suffix (l : List Char) : (takePipeBody l).2 <:+ l := by
  induction l with
  | nil => exact List.suffix_rfl
  | cons c t ih =>
      by_cases h : c = '|'
      · simp [takePipeBody, h, List.suffix_cons]
      · simpa [takePipeBody, h] using ih.trans (List.suffix_cons c t)

theorem parseToken_suffix (l : List Char) : (parseToken l).2 <:+ l := by
  have hs := skipWs_suffix l
  unfold parseToken
  cases h : skipWs l with
  | nil => exact List.nil_suffix
  | cons c t =>
      rw [h] at hs
      by_cases hc : c = '|'
      · simp only [hc, if_pos rfl]
        exact ((takePipeBody_suffix t).trans (List.suffix_cons '|' t)).trans (hc ▸ hs)
      · simp only [if_neg hc]
        exact (takePlain_suffix (c :: t)).trans hs

theorem parseToken_length (l : List Char) : (parseToken l).2.length ≤ l.length :=
  (parseToken_suffix l).length_le

theorem takePlain_length (l : List Char) : (takePlain l).2.length ≤ l.length :=
  (takePlain_suffix l).length_le

theorem takePipeBody_length (l : List Char) : (takePipeBody l).2.length ≤ l.length :=
  (takePipeBody_suffix l).length_le

theorem dropParen_suffix (l : List Char) : dropParen l <:+ l := by
  unfold dropParen
  split
  · exact List.tail_suffix l
  · exact List.suffix_rfl

theorem dropParen_length (l : List Char) : (dropParen l).length ≤ l.length :=
  (dropParen_suffix l).length_le

theorem skipWs_cons_ws {c : Char} (t : List Char) (h : isWhiteSpaceChar c) :
    skipWs (c :: t) = skipWs t := by
  simp [skipWs, h]

theorem skipWs_cons_not_ws {c : Char} (t : List Char) (h : ¬ isWhiteSpaceChar c) :
    skipWs (c :: t) = c :: t := by
  simp [skipWs, h]

theorem takePlain_cons_go {c : Char} (t : List Char) (hw : ¬ isWhiteSpaceChar c)
    (hp : c ≠ '(') (hq : c ≠ ')') :
    takePlain (c :: t) = (c :: (takePlain t).1, (takePlain t).2) := by
  simp [takePlain, hw, hp, hq]

theorem parseToken_cons_length {c : Char} (t : List Char) (hw : ¬ isWhiteSpaceChar c)
    (hp : c ≠ '(') (hq : c ≠ ')') :
    (parseToken (c :: t)).2.length ≤ t.length := by
  unfold parseToken
  rw [skipWs_cons_not_ws t hw]
  by_cases hc : c = '|'
  · simpa [hc] using takePipeBody_length t
  · simp only [if_neg hc]
    rw [takePlain_cons_go t hw hp hq]
    exact takePlain_length t

theorem parseToken_skipWs (l : List Char) : parseToken (skipWs l) = parseToken l := by
  unfold parseToken
  rw [skipWs_idem]

theorem parseExprF_succ_list (m : Nat) {l rest : List Char} (h : skipWs l = '(' :: rest) :
    parseExprF (m + 1) l =
      (.list (parseListF m rest).1, dropParen (parseListF m rest).2) := by
  simp [parseExprF, h]

theorem parseExprF_succ_atom (m : Nat) {l : List Char} (h : (skipWs l).head? ≠ some '(') :
    parseExprF (m + 1) l =
      (.atom (String.mk (parseToken (skipWs l)).1), (parseToken (skipWs l)).2) := by
  simp [parseExprF, h]

theorem parseListF_succ_nil (m : Nat) : parseListF (m + 1) [] = ([], []) := by
  simp [parseListF]

theorem parseListF_succ_stop (m : Nat) {c : Char} (t : List Char)
    (h : c = ')' ∨ c = nulChar) :
    parseListF (m + 1) (c :: t) = ([], c :: t) := by
  simp [parseListF, h]

theorem parseListF_succ_go (m : Nat) {c : Char} (t : List Char)
    (h1 : c ≠ ')') (h2 : c ≠ nulChar) :
    parseListF (m + 1) (c :: t) =
      ((parseExprF m (c :: t)).1 ::
        (parseListF m (skipWs (parseExprF m (c :: t)).2)).1,
       (parseListF m (skipWs (parseExprF m (c :: t)).2)).2) := by
  have h : ¬ (c = ')' ∨ c = nulChar) := by tauto
  simp [parseListF, h]

/-- The invariant carried by the fuel induction for `parseExprF`: with
adequate fuel the result is fuel-independent, the remaining input is a
suffix of the input, and consumption is strict when the first character is
not `)` or when a list was parsed. -/
def goodE (n : Nat) : Prop := ∀ l : List Char, 2 * l.length + 1 ≤ n →
  parseExprF n l = parseExpression l ∧
  (parseExprF n l).2 <:+ l ∧
  (∀ c t, l = c :: t → c ≠ ')' → (parseExprF n l).2.length < l.length) ∧
  (∀ xs, (parseExprF n l).1 = SExpr.list xs → (parseExprF n l).2.length < l.length)

/-- The corresponding invariant for the sub-expression loop `parseListF`. -/
def goodL (n : Nat) : Prop := ∀ l : List Char, 2 * l.length + 2 ≤ n →
  parseListF n l = parseListRun l ∧
  (parseListF n l).2 <:+ l

theorem parseF_good : ∀ n, goodE n ∧ goodL n := by
  intro n
  induction n using Nat.strong_induction_on with
  | _ n ih =>
    constructor
    · intro l hl
      obtain ⟨m, rfl⟩ : ∃ m, n = m + 1 := ⟨n - 1, by omega⟩
      by_cases hhead : (skipWs l).head? = some '('
      · obtain ⟨rest, hrest⟩ : ∃ rest, skipWs l = '(' :: rest := by
          cases hsw : skipWs l with
          | nil => rw [hsw] at hhead; simp at hhead
          | cons c t =>
              rw [hsw] at hhead
              simp only [List.head?_cons, Option.some.injEq] at hhead
              exact ⟨t, by rw [hhead]⟩
        have hrl : rest.length + 1 ≤ l.length := by
          have h := skipWs_length l
          rw [hrest] at h
          simpa using h
        have hLm := (ih m (Nat.lt_succ_self m)).2 rest (by omega)
        have hLK := (ih (2 * l.length) (by omega)).2 rest (by omega)
        have e1 := parseExprF_succ_list m hrest
        have e2 : parseExpression l =
            (.list (parseListF (2 * l.length) rest).1,
             dropParen (parseListF (2 * l.length) rest).2) := by
          unfold parseExpression
          exact parseExprF_succ_list (2 * l.length) hrest
        have hsuf : dropParen (parseListF m rest).2 <:+ l := by
          have h3 : rest <:+ skipWs l := by
            rw [hrest]; exact List.suffix_cons '(' rest
          exact (dropParen_suffix _).trans
            ((hLm.2.trans h3).trans (skipWs_suffix l))
        have hstrict : (dropParen (parseListF m rest).2).length < l.length := by
          calc (dropParen (parseListF m rest).2).length
              ≤ (parseListF m rest).2.length := dropParen_length _
            _ ≤ rest.length := hLm.2.length_le
            _ < l.length := by omega
        refine ⟨?_, ?_, ?_, ?_⟩
        · rw [e1, e2, hLm.1, hLK.1]
        · rw [e1]; exact hsuf
        · intro c t hlc hc
          rw [e1]; exact hstrict
        · intro xs _
          rw [e1]; exact hstrict
      · have e1 := parseExprF_succ_atom m hhead
        have e2 : parseExpression l =
            (.atom (String.mk (parseToken (skipWs l)).1), (parseToken (skipWs l)).2) := by
          unfold parseExpression
          exact parseExprF_succ_atom (2 * l.length) hhead
        refine ⟨by rw [e1, e2], ?_, ?_, ?_⟩
        · rw [e1]
          exact (parseToken_suffix (skipWs l)).trans (skipWs_suffix l)
        · intro c t hlc hc
          rw [e1]
          subst hlc
          by_cases hw : isWhiteSpaceChar c
          · rw [skipWs_cons_ws t hw]
            calc (parseToken (skipWs t)).2.length
                ≤ (skipWs t).length := parseToken_length _
              _ ≤ t.length := skipWs_length t
              _ < (c :: t).length := by simp
          · rw [skipWs_cons_not_ws t hw]
            have hp : c ≠ '(' := by
              intro hcc
              rw [skipWs_cons_not_ws t hw] at hhead
              subst hcc
              simp at hhead
            calc (parseToken (c :: t)).2.length
                ≤ t.length := parseToken_cons_length t hw hp hc
              _ < (c :: t).length := by simp
        · intro xs hxs
          rw [e1] at hxs
          simp at hxs
    · intro l hl
      obtain ⟨m, rfl⟩ : ∃ m, n = m + 1 := ⟨n - 1, by omega⟩
      match l, hl with
      | [], _ =>
          refine ⟨?_, List.suffix_rfl⟩
          rw [parseListF_succ_nil]
          rfl
      | c :: t, hl =>
          by_cases hstop : c = ')' ∨ c = nulChar
          · refine ⟨?_, ?_⟩
            · rw [parseListF_succ_stop m t hstop]
              obtain ⟨K, hK⟩ : ∃ K, 2 * (c :: t).length + 2 = K + 1 :=
                ⟨2 * (c :: t).length + 1, rfl⟩
              unfold parseListRun
              rw [hK, parseListF_succ_stop K t hstop]
            · rw [parseListF_succ_stop m t hstop]
          · have hc1 : c ≠ ')' := fun h => hstop (Or.inl h)
            have hc2 : c ≠ nulChar := fun h => hstop (Or.inr h)
            have hEm := (ih m (Nat.lt_succ_self m)).1 (c :: t) (by simp at hl ⊢; omega)
            have hrlt : (parseExprF m (c :: t)).2.length < (c :: t).length :=
              hEm.2.2.1 c t rfl hc1
            have hfuelL : 2 * (skipWs (parseExprF m (c :: t)).2).length + 2 ≤ m := by
              have h1 := skipWs_length (parseExprF m (c :: t)).2
              simp only [List.length_cons] at hrlt hl
              omega
            have hLm := (ih m (Nat.lt_succ_self m)).2
              (skipWs (parseExprF m (c :: t)).2) hfuelL
            -- the canonical-fuel unfolding
            have hKE := (ih (2 * (c :: t).length + 1) (by omega)).1 (c :: t) (le_refl _)
            have hre : parseExprF (2 * (c :: t).length + 1) (c :: t) = parseExprF m (c :: t) := by
              rw [hKE.1, hEm.1]
            have hKL := (ih (2 * (c :: t).length + 1) (by omega)).2
              (skipWs (parseExprF m (c :: t)).2)
              (by
                have h1 := skipWs_length (parseExprF m (c :: t)).2
                simp only [List.length_cons] at hrlt ⊢
                omega)
            refine ⟨?_, ?_⟩
            · rw [parseListF_succ_go m t hc1 hc2]
              have : parseListRun (c :: t) =
                  ((parseExprF m (c :: t)).1 ::
                    (parseListF m (skipWs (parseExprF m (c :: t)).2)).1,
                   (parseListF m (skipWs (parseExprF m (c :: t)).2)).2) := by
                unfold parseListRun
                have hK2 : 2 * (c :: t).length + 2 = (2 * (c :: t).length + 1) + 1 := rfl
                rw [hK2, parseListF_succ_go (2 * (c :: t).length + 1) t hc1 hc2, hre,
                  hKL.1, hLm.1]
              rw [this]
            · rw [parseListF_succ_go m t hc1 hc2]
              exact (hLm.2.trans (skipWs_suffix _)).trans hEm.2.1

theorem parseExprF_eq {n : Nat} {l : List Char} (h : 2 * l.length + 1 ≤ n) :
    parseExprF n l = parseExpression l :=
  ((parseF_good n).1 l h).1

theorem parseListF_eq {n : Nat} {l : List Char} (h : 2 * l.length + 2 ≤ n) :
    parseListF n l = parseListRun l :=
  ((parseF_good n).2 l h).1

theorem parseExpression_suffix (l : List Char) : (parseExpression l).2 <:+ l :=
  ((parseF_good (2 * l.length + 1)).1 l (le_refl _)).2.1

theorem parseExpression_length (l : List Char) :
    (parseExpression l).2.length ≤ l.length :=
  (parseExpression_suffix l).length_le

theorem parseExpression_strict {c : Char} (t : List Char) (hc : c ≠ ')') :
    (parseExpression (c :: t)).2.length < (c :: t).length :=
  ((parseF_good (2 * (c :: t).length + 1)).1 (c :: t) (le_refl _)).2.2.1 c t rfl hc

theorem parseExpression_list_strict {l : List Char} {xs : List SExpr}
    (h : (parseExpression l).1 = SExpr.list xs) :
    (parseExpression l).2.length < l.length :=
  ((parseF_good (2 * l.length + 1)).1 l (le_refl _)).2.2.2 xs h

theorem parseListRun_suffix (l : List Char) : (parseListRun l).2 <:+ l :=
  ((parseF_good (2 * l.length + 2)).2 l (le_refl _)).2

theorem parseExpression_eq_list {l rest : List Char} (h : skipWs l = '(' :: rest) :
    parseExpression l = (.list (parseListRun rest).1, dropParen (parseListRun rest).2) := by
  have hrl : rest.length + 1 ≤ l.length := by
    have hs := skipWs_length l
    rw [h] at hs
    simpa using hs
  unfold parseExpression
  rw [parseExprF_succ_list (2 * l.length) h, parseListF_eq (by omega)]

theorem parseExpression_eq_atom {l : List Char} (h : (skipWs l).head? ≠ some '(') :
    parseExpression l = (.atom (String.mk (parseToken l).1), (parseToken l).2) := by
  unfold parseExpression
  rw [parseExprF_succ_atom (2 * l.length) h, parseToken_skipWs]

theorem parseListRun_nil : parseListRun [] = ([], []) := rfl

theorem parseListRun_stop {c : Char} (t : List Char) (h : c = ')' ∨ c = nulChar) :
    parseListRun (c :: t) = ([], c :: t) := by
  unfold parseListRun
  exact parseListF_succ_stop (2 * (c :: t).length + 1) t h

theorem parseListRun_go {c : Char} (t : List Char) (h1 : c ≠ ')') (h2 : c ≠ nulChar) :
    parseListRun (c :: t) =
      ((parseExpression (c :: t)).1 ::
        (parseListRun (skipWs (parseExpression (c :: t)).2)).1,
       (parseListRun (skipWs (parseExpression (c :: t)).2)).2) := by
  unfold parseListRun
  have hK : 2 * (c :: t).length + 2 = (2 * (c :: t).length + 1) + 1 := rfl
  rw [hK, parseListF_succ_go (2 * (c :: t).length + 1) t h1 h2]
  have hre : parseExprF (2 * (c :: t).length + 1) (c :: t) = parseExpression (c :: t) := rfl
  rw [hre]
  have hstrict : (parseExpression (c :: t)).2.length < (c :: t).length :=
    parseExpression_strict t h1
  have hsl := skipWs_length (parseExpression (c :: t)).2
  rw [parseListF_eq (by omega)]
  rfl

/-! ### The `(m_data, m_pos)` view of the same code

`SMTLib2Parser` keeps the whole input `m_data` and a cursor `m_pos`;
`remainingInput()` is `m_data.substr(m_pos)`.  The following definitions
mirror the member functions on that representation; they are proved
equivalent to the remaining-input model above, which is the formal content
of the restartability property. -/

/-- `SMTLib2Parser::token()`: `m_pos < m_data.size() ? m_data[m_pos] : 0`. -/
def tokenAt (data : List Char) (pos : Nat) : Char :=
  data.getD pos nulChar

/-- `skipWhitespace` on the cursor representation (fueled loop). -/
def skipWsPos (data : List Char) : Nat → Nat → Nat
  | 0, pos => pos
  | f + 1, pos =>
      if isWhiteSpaceChar (tokenAt data pos) then skipWsPos data f (pos + 1) else pos

/-- The scanning loop of `parseToken` on the cursor representation. -/
def tokenLoopPos (data : List Char) (start : Nat) (pipe : Bool) : Nat → Nat → Nat
  | 0, pos => pos
  | f + 1, pos =>
      if pos < data.length then
        if pipe then
          if start < pos ∧ tokenAt data pos = '|' then pos + 1
          else tokenLoopPos data start pipe f (pos + 1)
        else
          if isWhiteSpaceChar (tokenAt data pos) ∨ tokenAt data pos = '(' ∨ tokenAt data pos = ')'
          then pos
          else tokenLoopPos data start pipe f (pos + 1)
      else pos

/-- `parseToken` on the cursor representation, started at an
already-whitespace-skipped position `start`: the returned string is
`m_data.substr(start, m_pos - start)`. -/
def parseTokenPosFrom (data : List Char) (start : Nat) : String × Nat :=
  (String.mk ((data.drop start).take
      (tokenLoopPos data start (tokenAt data start = '|') (data.length + 1) start - start)),
   tokenLoopPos data start (tokenAt data start = '|') (data.length + 1) start)

/-- `parseToken` on the cursor representation. -/
def parseTokenPos (data : List Char) (pos : Nat) : String × Nat :=
  parseTokenPosFrom data (skipWsPos data (data.length + 1) pos)

/-- `if (token() == ')') advance();` on the cursor representation. -/
def closeParenPos (data : List Char) (q : List SExpr × Nat) : SExpr × Nat :=
  if tokenAt data q.2 = ')' then (.list q.1, q.2 + 1) else (.list q.1, q.2)

mutual
/-- `parseExpression` on the cursor representation (fueled). -/
def parseExprPos (data : List Char) : Nat → Nat → SExpr × Nat
  | 0, pos => (.atom "", pos)
  | f + 1, pos =>
      if tokenAt data (skipWsPos data (data.length + 1) pos) = '(' then
        closeParenPos data (parseListPos data f (skipWsPos data (data.length + 1) pos + 1))
      else
        (.atom (parseTokenPos data pos).1, (parseTokenPos data pos).2)

/-- The sub-expression loop of `parseExpression` on the cursor
representation. -/
def parseListPos (data : List Char) : Nat → Nat → List SExpr × Nat
  | 0, pos => ([], pos)
  | f + 1, pos =>
      if tokenAt data pos = nulChar ∨ tokenAt data pos = ')' then ([], pos)
      else
        ((parseExprPos data f pos).1 ::
          (parseListPos data f
            (skipWsPos data (data.length + 1) (parseExprPos data f pos).2)).1,
         (parseListPos data f
            (skipWsPos data (data.length + 1) (parseExprPos data f pos).2)).2)
end

/-- One `parseExpression` call on the cursor representation with canonical
fuel; returns the node and the new `m_pos`. -/
def parseExpressionPos (data : List Char) (pos : Nat) : SExpr × Nat :=
  parseExprPos data (2 * (data.length - pos) + 1) pos

theorem drop_cons_facts {data : List Char} {pos : Nat} {c : Char} {t : List Char}
    (h : List.drop pos data = c :: t) :
    tokenAt data pos = c ∧ List.drop (pos + 1) data = t ∧ pos < data.length := by
  induction data generalizing pos with
  | nil => simp at h
  | cons d ds ih =>
      cases pos with
      | zero =>
          simp only [List.drop_zero] at h
          cases h
          exact ⟨rfl, by simp, by simp⟩
      | succ p =>
          have h' : List.drop p ds = c :: t := by simpa using h
          obtain ⟨h1, h2, h3⟩ := ih h'
          refine ⟨?_, ?_, ?_⟩
          · simpa [tokenAt, List.getD] using h1
          · simpa using h2
          · simpa using Nat.succ_lt_succ h3

theorem drop_nil_facts {data : List Char} {pos : Nat}
    (h : List.drop pos data = []) :
    tokenAt data pos = nulChar ∧ data.length ≤ pos := by
  have hlen : data.length ≤ pos := by
    by_contra hc
    push_neg at hc
    have : (List.drop pos data).length = data.length - pos := by simp
    rw [h] at this
    simp at this
    omega
  refine ⟨?_, hlen⟩
  unfold tokenAt
  exact List.getD_eq_default _ _ hlen

theorem skipWsPos_spec (data : List Char) :
    ∀ f pos, data.length ≤ f + pos →
      pos ≤ skipWsPos data f pos ∧
      List.drop (skipWsPos data f pos) data = skipWs (List.drop pos data) ∧
      (pos ≤ data.length → skipWsPos data f pos ≤ data.length) := by
  intro f
  induction f with
  | zero =>
      intro pos hf
      have hnil : List.drop pos data = [] := List.drop_eq_nil_of_le (by omega)
      simp [skipWsPos, hnil, skipWs]
  | succ f ih =>
      intro pos hf
      cases hd : List.drop pos data with
      | nil =>
          obtain ⟨htok, hlen⟩ := drop_nil_facts hd
          have hnw : ¬ isWhiteSpaceChar (tokenAt data pos) := by
            rw [htok]; decide
          simp only [skipWsPos, if_neg hnw]
          exact ⟨le_refl _, by rw [hd]; rfl, fun h => h⟩
      | cons c t =>
          obtain ⟨htok, hdrop, hlt⟩ := drop_cons_facts hd
          by_cases hw : isWhiteSpaceChar c
          · have hcond : isWhiteSpaceChar (tokenAt data pos) := by rw [htok]; exact hw
            simp only [skipWsPos, if_pos hcond]
            obtain ⟨h1, h2, h3⟩ := ih (pos + 1) (by omega)
            refine ⟨by omega, ?_, fun _ => h3 (by omega)⟩
            rw [h2, hdrop]
            exact (skipWs_cons_ws t hw).symm
          · have hcond : ¬ isWhiteSpaceChar (tokenAt data pos) := by rw [htok]; exact hw
            simp only [skipWsPos, if_neg hcond]
            exact ⟨le_refl _, by rw [hd, skipWs_cons_not_ws t hw], fun h => h⟩

theorem tokenLoopPos_plain_spec (data : List Char) :
    ∀ f pos start, data.length ≤ f + pos →
      pos ≤ tokenLoopPos data start false f pos ∧
      (data.drop pos).take (tokenLoopPos data start false f pos - pos) =
        (takePlain (data.drop pos)).1 ∧
      List.drop (tokenLoopPos data start false f pos) data = (takePlain (data.drop pos)).2 ∧
      (pos ≤ data.length → tokenLoopPos data start false f pos ≤ data.length) := by
  intro f
  induction f with
  | zero =>
      intro pos start hf
      have hnil : List.drop pos data = [] := List.drop_eq_nil_of_le (by omega)
      simp [tokenLoopPos, hnil, takePlain]
  | succ f ih =>
      intro pos start hf
      cases hd : List.drop pos data with
      | nil =>
          have hlen := (drop_nil_facts hd).2
          have hnlt : ¬ pos < data.length := by omega
          simp only [tokenLoopPos, if_neg hnlt]
          simp [hd, takePlain]
      | cons c t =>
          obtain ⟨htok, hdrop, hlt⟩ := drop_cons_facts hd
          simp only [tokenLoopPos, if_pos hlt, Bool.false_eq_true, if_neg (by trivial : ¬ False)]
          by_cases hstop : isWhiteSpaceChar c ∨ c = '(' ∨ c = ')'
          · have hcond : isWhiteSpaceChar (tokenAt data pos) ∨ tokenAt data pos = '(' ∨
                tokenAt data pos = ')' := by rw [htok]; exact hstop
            rw [if_pos hcond]
            have hguard : (isWhiteSpaceChar c || c = '(' || c = ')') = true := by
              rcases hstop with h | h | h <;> simp [h]
            rw [hd]
            refine ⟨le_refl _, ?_, ?_, fun h => h⟩
            · simp [takePlain, hguard]
            · simp [takePlain, hguard]
          · have hcond : ¬ (isWhiteSpaceChar (tokenAt data pos) ∨ tokenAt data pos = '(' ∨
                tokenAt data pos = ')') := by rw [htok]; exact hstop
            rw [if_neg hcond]
            obtain ⟨h1, h2, h3, h4⟩ := ih (pos + 1) start (by omega)
            have hguard : (isWhiteSpaceChar c || c = '(' || c = ')') = false := by
              push_neg at hstop
              simp [hstop.1, hstop.2.1, hstop.2.2]
            refine ⟨by omega, ?_, ?_, fun _ => h4 (by omega)⟩
            · have hsub : tokenLoopPos data start false f (pos + 1) - pos =
                  (tokenLoopPos data start false f (pos + 1) - (pos + 1)) + 1 := by omega
              rw [hsub, List.take_succ_cons]
              rw [hdrop] at h2
              rw [h2]
              simp [takePlain, hguard]
            · rw [hdrop] at h3
              rw [h3]
              simp [takePlain, hguard]

theorem tokenLoopPos_pipe_spec (data : List Char) :
    ∀ f pos start, data.length ≤ f + pos → start < pos →
      pos ≤ tokenLoopPos data start true f pos ∧
      (data.drop pos).take (tokenLoopPos data start true f pos - pos) =
        (takePipeBody (data.drop pos)).1 ∧
      List.drop (tokenLoopPos data start true f pos) data = (takePipeBody (data.drop pos)).2 ∧
      (pos ≤ data.length → tokenLoopPos data start true f pos ≤ data.length) := by
  intro f
  induction f with
  | zero =>
      intro pos start hf hs
      have hnil : List.drop pos data = [] := List.drop_eq_nil_of_le (by omega)
      simp [tokenLoopPos, hnil, takePipeBody]
  | succ f ih =>
      intro pos start hf hs
      cases hd : List.drop pos data with
      | nil =>
          have hlen := (drop_nil_facts hd).2
          have hnlt : ¬ pos < data.length := by omega
          simp only [tokenLoopPos, if_neg hnlt]
          simp [hd, takePipeBody]
      | cons c t =>
          obtain ⟨htok, hdrop, hlt⟩ := drop_cons_facts hd
          simp only [tokenLoopPos, if_pos hlt, if_pos (by trivial : True)]
          by_cases hc : c = '|'
          · have hcond : start < pos ∧ tokenAt data pos = '|' := ⟨hs, by rw [htok]; exact hc⟩
            rw [if_pos hcond]
            refine ⟨by omega, ?_, ?_, fun _ => by omega⟩
            · have : pos + 1 - pos = 1 := by omega
              rw [this]
              simp [takePipeBody, hc]
            · rw [hdrop]
              simp [takePipeBody, hc]
          · have hcond : ¬ (start < pos ∧ tokenAt data pos = '|') := by
              rw [htok]; tauto
            rw [if_neg hcond]
            obtain ⟨h1, h2, h3, h4⟩ := ih (pos + 1) start (by omega) (by omega)
            refine ⟨by omega, ?_, ?_, fun _ => h4 (by omega)⟩
            · have hsub : tokenLoopPos data start true f (pos + 1) - pos =
                  (tokenLoopPos data start true f (pos + 1) - (pos + 1)) + 1 := by omega
              rw [hsub, List.take_succ_cons]
              rw [hdrop] at h2
              rw [h2]
              simp [takePipeBody, hc]
            · rw [hdrop] at h3
              rw [h3]
              simp [takePipeBody, hc]

theorem parseTokenPosFrom_spec (data : List Char) (start : Nat)
    (hskip : skipWs (List.drop start data) = List.drop start data) :
    (parseTokenPosFrom data start).1 = String.mk (parseToken (List.drop start data)).1 ∧
    List.drop (parseTokenPosFrom data start).2 data = (parseToken (List.drop start data)).2 ∧
    start ≤ (parseTokenPosFrom data start).2 ∧
    (start ≤ data.length → (parseTokenPosFrom data start).2 ≤ data.length) := by
  unfold parseTokenPosFrom parseToken
  rw [hskip]
  cases hd : List.drop start data with
  | nil =>
      obtain ⟨htok, hlen⟩ := drop_nil_facts hd
      have hpipe : (decide (tokenAt data start = '|')) = false := by
        rw [htok]; decide
      rw [hpipe]
      obtain ⟨h1, h2, h3, h4⟩ :=
        tokenLoopPos_plain_spec data (data.length + 1) start start (by omega)
      rw [hd] at h2 h3
      refine ⟨?_, ?_, h1, fun hp => h4 hp⟩
      · rw [h2]
        rfl
      · rw [h3]
        rfl
  | cons c t =>
      obtain ⟨htok, hdrop, hlt⟩ := drop_cons_facts hd
      by_cases hc : c = '|'
      · have hpipe : (decide (tokenAt data start = '|')) = true := by
          rw [htok, hc]; decide
        rw [hpipe]
        have hcond : ¬ (start < start ∧ tokenAt data start = '|') := by omega
        have hloop : tokenLoopPos data start true (data.length + 1) start =
            tokenLoopPos data start true data.length (start + 1) := by
          simp only [tokenLoopPos, if_pos hlt, if_neg hcond, if_pos (by trivial : True)]
        obtain ⟨h1, h2, h3, h4⟩ :=
          tokenLoopPos_pipe_spec data data.length (start + 1) start (by omega) (by omega)
        rw [hdrop] at h2 h3
        rw [hloop]
        subst hc
        refine ⟨?_, ?_, by omega, fun _ => h4 (by omega)⟩
        · have hsub : tokenLoopPos data start true data.length (start + 1) - start =
              (tokenLoopPos data start true data.length (start + 1) - (start + 1)) + 1 := by
            omega
          rw [hsub, List.take_succ_cons, h2]
          rfl
        · rw [h3]
          rfl
      · have hpipe : (decide (tokenAt data start = '|')) = false := by
          rw [htok]; simp [hc]
        rw [hpipe]
        obtain ⟨h1, h2, h3, h4⟩ :=
          tokenLoopPos_plain_spec data (data.length + 1) start start (by omega)
        rw [hd] at h2 h3
        refine ⟨?_, ?_, h1, fun hp => h4 hp⟩
        · rw [h2]
          simp [hc]
        · rw [h3]
          simp [hc]

theorem parseTokenPos_spec (data : List Char) (pos : Nat) :
    (parseTokenPos data pos).1 = String.mk (parseToken (List.drop pos data)).1 ∧
    List.drop (parseTokenPos data pos).2 data = (parseToken (List.drop pos data)).2 ∧
    pos ≤ (parseTokenPos data pos).2 ∧
    (pos ≤ data.length → (parseTokenPos data pos).2 ≤ data.length) := by
  obtain ⟨hs1, hs2, hs3⟩ := skipWsPos_spec data (data.length + 1) pos (by omega)
  unfold parseTokenPos
  have hskip : skipWs (List.drop (skipWsPos data (data.length + 1) pos) data) =
      List.drop (skipWsPos data (data.length + 1) pos) data := by
    rw [hs2, skipWs_idem]
  obtain ⟨h1, h2, h3, h4⟩ := parseTokenPosFrom_spec data _ hskip
  rw [hs2] at h1 h2
  refine ⟨?_, ?_, le_trans hs1 h3, fun hp => h4 (hs3 hp)⟩
  · rw [h1]
    unfold parseToken
    rw [skipWs_idem]
  · rw [h2]
    unfold parseToken
    rw [skipWs_idem]

theorem parsePos_equiv (data : List Char) : ∀ f : Nat,
    (∀ pos, pos ≤ data.length →
      (parseExprPos data f pos).1 = (parseExprF f (List.drop pos data)).1 ∧
      List.drop (parseExprPos data f pos).2 data = (parseExprF f (List.drop pos data)).2 ∧
      pos ≤ (parseExprPos data f pos).2 ∧ (parseExprPos data f pos).2 ≤ data.length) ∧
    (∀ pos, pos ≤ data.length →
      (parseListPos data f pos).1 = (parseListF f (List.drop pos data)).1 ∧
      List.drop (parseListPos data f pos).2 data = (parseListF f (List.drop pos data)).2 ∧
      pos ≤ (parseListPos data f pos).2 ∧ (parseListPos data f pos).2 ≤ data.length) := by
  intro f
  induction f with
  | zero =>
      constructor
      · intro pos hp
        exact ⟨rfl, rfl, le_refl _, hp⟩
      · intro pos hp
        exact ⟨rfl, rfl, le_refl _, hp⟩
  | succ f ih =>
      constructor
      · intro pos hp
        obtain ⟨hs1, hs2, hs3⟩ := skipWsPos_spec data (data.length + 1) pos (by omega)
        by_cases htok : tokenAt data (skipWsPos data (data.length + 1) pos) = '('
        · obtain ⟨rest, hdp1⟩ :
              ∃ rest, List.drop (skipWsPos data (data.length + 1) pos) data = '(' :: rest := by
            cases hdd : List.drop (skipWsPos data (data.length + 1) pos) data with
            | nil =>
                have := (drop_nil_facts hdd).1
                rw [this] at htok
                simp [nulChar] at htok
            | cons c rest =>
                have := (drop_cons_facts hdd).1
                rw [this] at htok
                exact ⟨rest, by rw [htok]⟩
          have hsw : skipWs (List.drop pos data) = '(' :: rest := by rw [← hs2]; exact hdp1
          obtain ⟨_, hdp2, hltp1⟩ := drop_cons_facts hdp1
          have hlist := parseExprF_succ_list f hsw
          have hIH := ih.2 (skipWsPos data (data.length + 1) pos + 1) (by omega)
          rw [hdp2] at hIH
          obtain ⟨hq1, hq2, hq3, hq4⟩ := hIH
          have hunfold : parseExprPos data (f + 1) pos =
              closeParenPos data
                (parseListPos data f (skipWsPos data (data.length + 1) pos + 1)) := by
            simp only [parseExprPos, if_pos htok]
          rw [hunfold, hlist]
          cases hr : (parseListF f rest).2 with
          | nil =>
              rw [hr] at hq2
              obtain ⟨htq, _⟩ := drop_nil_facts hq2
              have hnc : ¬ tokenAt data (parseListPos data f
                  (skipWsPos data (data.length + 1) pos + 1)).2 = ')' := by
                rw [htq]; decide
              unfold closeParenPos
              rw [if_neg hnc]
              refine ⟨by simp [hq1], by simp [hq2, dropParen], by omega, hq4⟩
          | cons c2 r2 =>
              rw [hr] at hq2
              obtain ⟨htq, hdq, hltq⟩ := drop_cons_facts hq2
              by_cases hc2 : c2 = ')'
              · have hyc : tokenAt data (parseListPos data f
                    (skipWsPos data (data.length + 1) pos + 1)).2 = ')' := by
                  rw [htq, hc2]
                unfold closeParenPos
                rw [if_pos hyc]
                subst hc2
                refine ⟨by simp [hq1], ?_, by omega, by omega⟩
                simp only [dropParen, List.head?_cons, List.tail_cons, if_pos rfl]
                exact hdq
              · have hnc : ¬ tokenAt data (parseListPos data f
                    (skipWsPos data (data.length + 1) pos + 1)).2 = ')' := by
                  rw [htq]; exact hc2
                unfold closeParenPos
                rw [if_neg hnc]
                refine ⟨by simp [hq1], ?_, by omega, hq4⟩
                have hdp : dropParen (c2 :: r2) = c2 :: r2 := by
                  simp [dropParen, hc2]
                rw [hdp]
                exact hq2
        · have hhead : (skipWs (List.drop pos data)).head? ≠ some '(' := by
            rw [← hs2]
            cases hdd : List.drop (skipWsPos data (data.length + 1) pos) data with
            | nil => simp
            | cons c rest =>
                have := (drop_cons_facts hdd).1
                rw [this] at htok
                simp [htok]
          have hatom := parseExprF_succ_atom f hhead
          obtain ⟨ht1, ht2, ht3, ht4⟩ := parseTokenPos_spec data pos
          have hunfold : parseExprPos data (f + 1) pos =
              (.atom (parseTokenPos data pos).1, (parseTokenPos data pos).2) := by
            simp only [parseExprPos, if_neg htok]
          rw [hunfold, hatom, parseToken_skipWs]
          exact ⟨by rw [ht1], by rw [ht2], ht3, ht4 hp⟩
      · intro pos hp
        cases hd : List.drop pos data with
        | nil =>
            obtain ⟨htok, _⟩ := drop_nil_facts hd
            have hstop : tokenAt data pos = nulChar ∨ tokenAt data pos = ')' := Or.inl htok
            have hunfold : parseListPos data (f + 1) pos = ([], pos) := by
              simp only [parseListPos, if_pos hstop]
            rw [hunfold, parseListF_succ_nil]
            exact ⟨rfl, hd, le_refl _, hp⟩
        | cons c t =>
            obtain ⟨htok, hdrop, hlt⟩ := drop_cons_facts hd
            by_cases hstop : c = ')' ∨ c = nulChar
            · have hstop2 : tokenAt data pos = nulChar ∨ tokenAt data pos = ')' := by
                rw [htok]; tauto
              have hunfold : parseListPos data (f + 1) pos = ([], pos) := by
                simp only [parseListPos, if_pos hstop2]
              rw [hunfold, parseListF_succ_stop f t hstop]
              exact ⟨rfl, hd, le_refl _, hp⟩
            · have hc1 : c ≠ ')' := fun h => hstop (Or.inl h)
              have hc2 : c ≠ nulChar := fun h => hstop (Or.inr h)
              have hstop2 : ¬ (tokenAt data pos = nulChar ∨ tokenAt data pos = ')') := by
                rw [htok]; tauto
              have hunfold : parseListPos data (f + 1) pos =
                  ((parseExprPos data f pos).1 ::
                    (parseListPos data f
                      (skipWsPos data (data.length + 1) (parseExprPos data f pos).2)).1,
                   (parseListPos data f
                      (skipWsPos data (data.length + 1) (parseExprPos data f pos).2)).2) := by
                simp only [parseListPos, if_neg hstop2]
              obtain ⟨he1, he2, he3, he4⟩ := ih.1 pos hp
              obtain ⟨hw1, hw2, hw3⟩ :=
                skipWsPos_spec data (data.length + 1) (parseExprPos data f pos).2 (by omega)
              rw [he2] at hw2
              obtain ⟨hl1, hl2, hl3, hl4⟩ := ih.2
                (skipWsPos data (data.length + 1) (parseExprPos data f pos).2) (hw3 he4)
              rw [hw2] at hl1 hl2
              simp only [hd] at he1 he2 hl1 hl2
              rw [hunfold, parseListF_succ_go f t hc1 hc2]
              refine ⟨?_, ?_, by omega, hl4⟩
              · rw [he1, hl1]
              · rw [hl2]

theorem parseExpressionPos_spec (data : List Char) (pos : Nat) (h : pos ≤ data.length) :
    (parseExpressionPos data pos).1 = (parseExpression (List.drop pos data)).1 ∧
    List.drop (parseExpressionPos data pos).2 data = (parseExpression (List.drop pos data)).2 ∧
    pos ≤ (parseExpressionPos data pos).2 ∧
    (parseExpressionPos data pos).2 ≤ data.length := by
  obtain ⟨h1, h2, h3, h4⟩ := (parsePos_equiv data (2 * (data.length - pos) + 1)).1 pos h
  have hfe : parseExprF (2 * (data.length - pos) + 1) (List.drop pos data) =
      parseExpression (List.drop pos data) :=
    parseExprF_eq (by simp [List.length_drop])
  rw [hfe] at h1 h2
  exact ⟨h1, h2, h3, h4⟩

/-! ### Sorts, expressions and the elaborator -/

/-- `SortProvider::realSort` / `SortProvider::boolSort` — the only sorts
this tool produces. -/
inductive SmtSort where
  | real
  | bool
deriving DecidableEq, Repr

/-- `smtutil::Expression`: a name, a list of argument expressions and a
sort. -/
structure SMTExpr where
  name : String
  arguments : List SMTExpr
  sort : SmtSort
deriving Repr

/-- The observable failure modes of the C++ code: `malformed` for the
"clean" aborts (`solAssert` failure, `std::get` bad variant access,
`map::at` missing key, invalid `u256` numeral), `unknownCommand` for the
unknown-instruction `solAssert` in `main`, and `outOfBounds` for
`front()`/`back()` on an empty container, which is undefined behaviour
rather than a clean failure. -/
inductive CErr where
  | malformed
  | outOfBounds
  | unknownCommand
deriving DecidableEq, Repr

/-- The sort environment `map<string, SortPointer>`, as an association
list; insertion prepends, lookup takes the first match, which gives the
`map` overwrite semantics. -/
def Env : Type := List (String × SmtSort)

instance : Inhabited Env := ⟨([] : List (String × SmtSort))⟩

/-- `map::operator[]` assignment. -/
def envInsert (k : String) (v : SmtSort) (e : Env) : Env :=
  (k, v) :: e

/-- `map::at`: `some` the mapped sort, `none` when the key is absent (the
C++ call throws `std::out_of_range` in that case). -/
def envLookup (k : String) : Env → Option SmtSort
  | [] => none
  | (k2, v) :: e => if k2 = k then some v else envLookup k e

/-- The `boolOperators` set of `toSMTUtilExpression`. -/
def boolOperators : List String :=
  ["and", "or", "not", "=", "<", ">", "<=", ">=", "=>"]

/-- Modelled from the spec: construction of a `u256` from a decimal
numeral string (libsolutil, not under src/) — exact integer parsing,
truncated to 256 bits; a string that is not a nonempty digit sequence
makes the constructor throw, modelled as `none`. -/
def decDigit? (c : Char) : Option Nat :=
  if isDigitChar c then some (c.toNat - '0'.toNat) else none

/-- Accumulating decimal evaluation of a digit list. -/
def decValueAux : Nat → List Char → Option Nat
  | acc, [] => some acc
  | acc, c :: t =>
      match decDigit? c with
      | some d => decValueAux (acc * 10 + d) t
      | none => none

/-- Modelled from the spec: `u256(string)` — see `decDigit?`. -/
def u256FromString (s : String) : Option Nat :=
  match s.data with
  | [] => none
  | l => (decValueAux 0 l).map (· % 2 ^ 256)

/-- The recursion of `parseRational`, on the reversed character list: as
long as the numeral has at least 3 characters and ends in `.0`, strip the
final two characters. -/
def stripDotZeroRev : List Char → List Char
  | '0' :: '.' :: c :: rest => stripDotZeroRev (c :: rest)
  | l => l

/-- `parseRational`: strip trailing `.0` (repeatedly), then parse as an
exact integer. -/
def parseRational (s : String) : Option Nat :=
  u256FromString (String.mk (stripDotZeroRev s.data.reverse).reverse)

mutual
/-- `toSMTUtilExpression(SMTLib2Expression const&, map<string, SortPointer>
const&)`, the elaborator. -/
def toSMTUtilExpression : SExpr → Env → Except CErr SMTExpr
  | .atom a, env =>
      match a.data with
      | [] => .error .outOfBounds
      | c :: _ =>
          if isDigitChar c || c = '.' then
            match parseRational a with
            | some v => .ok ⟨Nat.repr v, [], .real⟩
            | none => .error .malformed
          else
            match envLookup a env with
            | some s => .ok ⟨a, [], s⟩
            | none => .error .malformed
  | .list xs, env =>
      match xs with
      | [] => .error .outOfBounds
      | x0 :: rest =>
          match x0 with
          | .list _ => .error .malformed
          | .atom op =>
              if op = "let" then
                match rest with
                | [bindings, body] =>
                    match bindings with
                    | .atom _ => .error .malformed
                    | .list bs =>
                        match toSMTBindings env bs env with
                        | .error e => .error e
                        | .ok (args, subSorts) =>
                            match toSMTUtilExpression body subSorts with
                            | .error e => .error e
                            | .ok b => .ok ⟨op, args ++ [b], b.sort⟩
                | _ => .error .malformed
              else
                match toSMTArgs rest env with
                | .error e => .error e
                | .ok args =>
                    if op ∈ boolOperators then .ok ⟨op, args, .bool⟩
                    else
                      match args.getLast? with
                      | some a => .ok ⟨op, args, a.sort⟩
                      | none => .error .outOfBounds

/-- The argument loop of the non-`let` branch: elaborate the remaining
elements in order against the same environment. -/
def toSMTArgs : List SExpr → Env → Except CErr (List SMTExpr)
  | [], _ => .ok []
  | x :: xs, env =>
      match toSMTUtilExpression x env with
      | .error e => .error e
      | .ok a =>
          match toSMTArgs xs env with
          | .error e => .error e
          | .ok as => .ok (a :: as)

/-- The binding loop of the `let` branch: each binding value is elaborated
against the first environment argument (the `let`'s outer environment),
while the bound sorts accumulate in the second (the transient `subSorts`
copy used only for the body). -/
def toSMTBindings : Env → List SExpr → Env → Except CErr (List SMTExpr × Env)
  | _, [], subSorts => .ok ([], subSorts)
  | env, b :: bs, subSorts =>
      match b with
      | .atom _ => .error .malformed
      | .list els =>
          match els with
          | [.atom varName, value] =>
              match toSMTUtilExpression value env with
              | .error e => .error e
              | .ok repl =>
                  match toSMTBindings env bs (envInsert varName repl.sort subSorts) with
                  | .error e => .error e
                  | .ok (args, ss) => .ok (⟨varName, [repl], repl.sort⟩ :: args, ss)
          | _ => .error .malformed
end

/-! ### The driver loop of `main` -/

/-- The calls `main` makes into the external `BooleanLPSolver`, kept as a
trace; the solver itself is the out-of-scope opaque collaborator. -/
inductive SolverCall where
  | declareVariable (name : String) (sort : SmtSort)
  | addAssertion (e : SMTExpr)
  | check
deriving Repr

/-- Whether the driver keeps consuming input after a command (`exit`
returns from `main` immediately). -/
inductive Control where
  | next
  | halt
deriving DecidableEq, Repr

/-- The effect of dispatching one top-level form: the updated global sort
environment, the solver calls made, and whether the driver continues. -/
structure DispatchOut where
  env : Env
  calls : List SolverCall
  control : Control

/-- `type == "Real" ? SortProvider::realSort : SortProvider::boolSort`,
guarded by `solAssert(type == "Real" || type == "Bool")`. -/
def sortOfTypeName (ty : String) : Option SmtSort :=
  if ty = "Real" then some .real
  else if ty = "Bool" then some .bool
  else none

/-- The body of the driver loop in `main` after one form has been parsed:
extract the command atom and interpret the form.  Every `solAssert`
failure and bad variant access is a fatal `.malformed` (the
unknown-instruction case is `.unknownCommand`). -/
def dispatch (env : Env) (e : SExpr) : Except CErr DispatchOut :=
  match e with
  | .atom _ => .error .malformed
  | .list items =>
      match items with
      | [] => .error .malformed
      | x0 :: rest =>
          match x0 with
          | .list _ => .error .malformed
          | .atom cmd =>
              if cmd = "set-info" then .ok ⟨env, [], .next⟩
              else if cmd = "declare-fun" then
                match rest with
                | [nameNode, argListNode, tyNode] =>
                    match nameNode with
                    | .list _ => .error .malformed
                    | .atom name =>
                        match argListNode with
                        | .atom _ => .error .malformed
                        | .list [] =>
                            match tyNode with
                            | .list _ => .error .malformed
                            | .atom ty =>
                                match sortOfTypeName ty with
                                | some s =>
                                    .ok ⟨envInsert name s env,
                                      [.declareVariable name s], .next⟩
                                | none => .error .malformed
                        | .list (_ :: _) => .error .malformed
                | _ => .error .malformed
              else if cmd = "define-fun" then .ok ⟨env, [], .next⟩
              else if cmd = "assert" then
                match rest with
                | [a] =>
                    match toSMTUtilExpression a env with
                    | .ok ex => .ok ⟨env, [.addAssertion ex], .next⟩
                    | .error err => .error err
                | _ => .error .malformed
              else if cmd = "set-logic" then .ok ⟨env, [], .next⟩
              else if cmd = "check-sat" then .ok ⟨env, [.check], .next⟩
              else if cmd = "exit" then .ok ⟨env, [], .halt⟩
              else .error .unknownCommand

/-- The `while (!inputToParse.empty())` loop of `main`, fueled (the fuel
is only bookkeeping: every non-halting iteration parses a list form and
therefore strictly consumes input, so `l.length + 1` fuel always
suffices).  `.ok` is `main` returning 0, carrying the trace of solver
calls; `.error` is a fatal abort. -/
def runF : Nat → Env → List SolverCall → List Char → Except CErr (List SolverCall)
  | 0, _, acc, _ => .ok acc
  | fuel + 1, env, acc, l =>
      if l.isEmpty then .ok acc
      else
        match dispatch env (parseExpression l).1 with
        | .error err => .error err
        | .ok out =>
            match out.control with
            | .halt => .ok (acc ++ out.calls)
            | .next => runF fuel out.env (acc ++ out.calls) (parseExpression l).2

/-- `removeComments`: delete from each `;` through the line terminator
(inclusive), written with an in-comment flag so that the recursion is
structural. -/
def removeCommentsGo : Bool → List Char → List Char
  | _, [] => []
  | true, c :: t =>
      if c = '\n' then removeCommentsGo false t else removeCommentsGo true t
  | false, c :: t =>
      if c = ';' then removeCommentsGo true t else c :: removeCommentsGo false t

/-- `removeComments` of `solsmt.cpp`. -/
def removeComments (l : List Char) : List Char :=
  removeCommentsGo false l

/-- The whole of `main` on a file content: strip comments, then run the
driver loop on the result with an empty sort environment. -/
def solsmtRun (input : String) : Except CErr (List SolverCall) :=
  runF ((removeComments input.data).length + 1) ([] : Env) [] (removeComments input.data)

theorem dispatch_ok_list {env : Env} {e : SExpr} {out : DispatchOut}
    (h : dispatch env e = .ok out) : ∃ xs, e = .list xs := by
  cases e with
  | atom a => simp [dispatch] at h
  | list xs => exact ⟨xs, rfl⟩

theorem runF_succ_empty (fuel : Nat) (env : Env) (acc : List SolverCall) :
    runF (fuel + 1) env acc [] = .ok acc := by
  simp [runF]

theorem runF_succ_error {env : Env} {l : List Char} {err : CErr}
    (hl : l ≠ []) (h : dispatch env (parseExpression l).1 = .error err)
    (fuel : Nat) (acc : List SolverCall) :
    runF (fuel + 1) env acc l = .error err := by
  simp [runF, List.isEmpty_iff, hl, h]

theorem runF_succ_halt {env : Env} {l : List Char} {out : DispatchOut}
    (hl : l ≠ []) (h : dispatch env (parseExpression l).1 = .ok out)
    (hc : out.control = .halt) (fuel : Nat) (acc : List SolverCall) :
    runF (fuel + 1) env acc l = .ok (acc ++ out.calls) := by
  simp [runF, List.isEmpty_iff, hl, h, hc]

theorem runF_succ_next {env : Env} {l : List Char} {out : DispatchOut}
    (hl : l ≠ []) (h : dispatch env (parseExpression l).1 = .ok out)
    (hc : out.control = .next) (fuel : Nat) (acc : List SolverCall) :
    runF (fuel + 1) env acc l =
      runF fuel out.env (acc ++ out.calls) (parseExpression l).2 := by
  simp [runF, List.isEmpty_iff, hl, h, hc]

theorem dispatch_consumes {env : Env} {l : List Char} {out : DispatchOut}
    (h : dispatch env (parseExpression l).1 = .ok out) :
    (parseExpression l).2.length < l.length := by
  obtain ⟨xs, hxs⟩ := dispatch_ok_list h
  exact parseExpression_list_strict hxs

theorem runF_fuel_eq :
    ∀ n (l : List Char), l.length ≤ n →
      ∀ fuel1 fuel2 (env : Env) acc, l.length < fuel1 → l.length < fuel2 →
        runF fuel1 env acc l = runF fuel2 env acc l := by
  intro n
  induction n with
  | zero =>
      intro l hl fuel1 fuel2 env acc h1 h2
      have hnil : l = [] := List.length_eq_zero.mp (by omega)
      obtain ⟨g1, rfl⟩ : ∃ g, fuel1 = g + 1 := ⟨fuel1 - 1, by omega⟩
      obtain ⟨g2, rfl⟩ : ∃ g, fuel2 = g + 1 := ⟨fuel2 - 1, by omega⟩
      rw [hnil, runF_succ_empty, runF_succ_empty]
  | succ n ih =>
      intro l hl fuel1 fuel2 env acc h1 h2
      obtain ⟨g1, rfl⟩ : ∃ g, fuel1 = g + 1 := ⟨fuel1 - 1, by omega⟩
      obtain ⟨g2, rfl⟩ : ∃ g, fuel2 = g + 1 := ⟨fuel2 - 1, by omega⟩
      by_cases hnil : l = []
      · rw [hnil, runF_succ_empty, runF_succ_empty]
      · match hdis : dispatch env (parseExpression l).1 with
        | .error err =>
            rw [runF_succ_error hnil hdis, runF_succ_error hnil hdis]
        | .ok out =>
            match hctl : out.control with
            | .halt =>
                rw [runF_succ_halt hnil hdis hctl, runF_succ_halt hnil hdis hctl]
            | .next =>
                rw [runF_succ_next hnil hdis hctl, runF_succ_next hnil hdis hctl]
                have hcons := dispatch_consumes hdis
                exact ih (parseExpression l).2 (by omega) g1 g2 out.env
                  (acc ++ out.calls) (by omega) (by omega)

/-- An input on which the driver loop runs to completion: every iteration
parses a form whose dispatch succeeds and continues. -/
inductive GoodRun : Env → List Char → Prop where
  | done (env : Env) : GoodRun env []
  | step (env : Env) (l : List Char) (out : DispatchOut) :
      l ≠ [] →
      dispatch env (parseExpression l).1 = .ok out →
      out.control = .next →
      GoodRun out.env (parseExpression l).2 →
      GoodRun env l

theorem runF_goodRun {env : Env} {l : List Char} (hg : GoodRun env l) :
    ∀ fuel acc, l.length < fuel → ∃ cs, runF fuel env acc l = .ok cs := by
  induction hg with
  | done env =>
      intro fuel acc hf
      obtain ⟨g, rfl⟩ : ∃ g, fuel = g + 1 := ⟨fuel - 1, by omega⟩
      exact ⟨acc, runF_succ_empty g env acc⟩
  | step env l out hne hdis hctl _ ih =>
      intro fuel acc hf
      obtain ⟨g, rfl⟩ : ∃ g, fuel = g + 1 := ⟨fuel - 1, by omega⟩
      rw [runF_succ_next hne hdis hctl]
      have hcons := dispatch_consumes hdis
      exact ih g (acc ++ out.calls) (by omega)

theorem toSMTArgs_eq_mapM (xs : List SExpr) (env : Env) :
    toSMTArgs xs env = xs.mapM (fun x => toSMTUtilExpression x env) := by
  induction xs with
  | nil => rfl
  | cons x xs ih =>
      rw [List.mapM_cons, ← ih]
      cases h : toSMTUtilExpression x env with
      | error e =>
          simp only [toSMTArgs, h]
          rfl
      | ok a =>
          cases h2 : toSMTArgs xs env with
          | error e =>
              simp only [toSMTArgs, h, h2]
              rfl
          | ok as =>
              simp only [toSMTArgs, h, h2]
              rfl

theorem toSMT_let_eq (env : Env) (bs : List SExpr) (body : SExpr) :
    toSMTUtilExpression (.list [.atom "let", .list bs, body]) env =
      match toSMTBindings env bs env with
      | .error e => .error e
      | .ok (args, subSorts) =>
          match toSMTUtilExpression body subSorts with
          | .error e => .error e
          | .ok b => .ok ⟨"let", args ++ [b], b.sort⟩ := rfl

theorem toSMTBindings_cons_ok (env : Env) {y : SExpr} {v : String} {repl : SMTExpr}
    (bs : List SExpr) (ss : Env) (hv : toSMTUtilExpression y env = .ok repl) :
    toSMTBindings env (.list [.atom v, y] :: bs) ss =
      match toSMTBindings env bs (envInsert v repl.sort ss) with
      | .error e => .error e
      | .ok (args, ss2) => .ok (⟨v, [repl], repl.sort⟩ :: args, ss2) := by
  simp only [toSMTBindings, hv]

theorem toSMTBindings_cons_err (env : Env) {y : SExpr} {v : String} {e : CErr}
    (bs : List SExpr) (ss : Env) (hv : toSMTUtilExpression y env = .error e) :
    toSMTBindings env (.list [.atom v, y] :: bs) ss = .error e := by
  simp only [toSMTBindings, hv]

theorem toSMTBindings_fst_indep (env : Env) (bs : List SExpr) :
    ∀ ss1 ss2 : Env,
      Except.map Prod.fst (toSMTBindings env bs ss1) =
        Except.map Prod.fst (toSMTBindings env bs ss2) := by
  induction bs with
  | nil => intro ss1 ss2; rfl
  | cons b bs ih =>
      intro ss1 ss2
      cases b with
      | atom a => rfl
      | list els =>
          match els with
          | [] => rfl
          | [x] => cases x <;> rfl
          | x :: y :: z :: w => cases x <;> rfl
          | [x, y] =>
              cases x with
              | list _ => rfl
              | atom v =>
                  cases hv : toSMTUtilExpression y env with
                  | error e =>
                      rw [toSMTBindings_cons_err env bs ss1 hv,
                        toSMTBindings_cons_err env bs ss2 hv]
                  | ok repl =>
                      have hIH := ih (envInsert v repl.sort ss1) (envInsert v repl.sort ss2)
                      rw [toSMTBindings_cons_ok env bs ss1 hv,
                        toSMTBindings_cons_ok env bs ss2 hv]
                      cases h1 : toSMTBindings env bs (envInsert v repl.sort ss1) with
                      | error e =>
                          cases h2 : toSMTBindings env bs (envInsert v repl.sort ss2) with
                          | error e2 =>
                              rw [h1, h2] at hIH
                              exact hIH
                          | ok p2 =>
                              rw [h1, h2] at hIH
                              simp [Except.map] at hIH
                      | ok p1 =>
                          cases h2 : toSMTBindings env bs (envInsert v repl.sort ss2) with
                          | error e2 =>
                              rw [h1, h2] at hIH
                              simp [Except.map] at hIH
                          | ok p2 =>
                              rw [h1, h2] at hIH
                              simp only [Except.map] at hIH ⊢
                              simp only [Except.ok.injEq] at hIH ⊢
                              rw [hIH]

theorem not_let_mem_boolOperators : "let" ∉ boolOperators := by decide

theorem toSMT_app_args_err {env : Env} {op : String} {rest : List SExpr} {e : CErr}
    (hop : op ≠ "let") (h : toSMTArgs rest env = .error e) :
    toSMTUtilExpression (.list (.atom op :: rest)) env = .error e := by
  rw [toSMTUtilExpression.eq_def]
  simp only [if_neg hop, h]

theorem toSMT_app_bool_ok {env : Env} {op : String} {rest : List SExpr}
    {args : List SMTExpr} (hb : op ∈ boolOperators)
    (hargs : toSMTArgs rest env = .ok args) :
    toSMTUtilExpression (.list (.atom op :: rest)) env = .ok ⟨op, args, .bool⟩ := by
  have hop : op ≠ "let" := fun h => not_let_mem_boolOperators (h ▸ hb)
  rw [toSMTUtilExpression.eq_def]
  simp only [if_neg hop, hargs, if_pos hb]

theorem toSMT_app_last_ok {env : Env} {op : String} {rest : List SExpr}
    {args : List SMTExpr} {a : SMTExpr} (hop : op ≠ "let") (hb : op ∉ boolOperators)
    (hargs : toSMTArgs rest env = .ok args) (hlast : args.getLast? = some a) :
    toSMTUtilExpression (.list (.atom op :: rest)) env = .ok ⟨op, args, a.sort⟩ := by
  rw [toSMTUtilExpression.eq_def]
  simp only [if_neg hop, hargs, if_neg hb, hlast]

theorem toSMT_app_empty_oob {env : Env} {op : String} {rest : List SExpr}
    {args : List SMTExpr} (hop : op ≠ "let") (hb : op ∉ boolOperators)
    (hargs : toSMTArgs rest env = .ok args) (hlast : args.getLast? = none) :
    toSMTUtilExpression (.list (.atom op :: rest)) env = .error .outOfBounds := by
  rw [toSMTUtilExpression.eq_def]
  simp only [if_neg hop, hargs, if_neg hb, hlast]

theorem toSMT_app_ok {env : Env} {op : String} {rest : List SExpr} {args : List SMTExpr}
    {a : SMTExpr} (hop : op ≠ "let") (hargs : toSMTArgs rest env = .ok args)
    (hlast : args.getLast? = some a) :
    toSMTUtilExpression (.list (.atom op :: rest)) env =
      .ok ⟨op, args, if op ∈ boolOperators then .bool else a.sort⟩ := by
  by_cases hb : op ∈ boolOperators
  · rw [toSMT_app_bool_ok hb hargs, if_pos hb]
  · rw [toSMT_app_last_ok hop hb hargs hlast, if_neg hb]

theorem dispatch_cmd_eq (env : Env) (cmd : String) (rest : List SExpr) :
    dispatch env (.list (.atom cmd :: rest)) =
      (if cmd = "set-info" then .ok ⟨env, [], .next⟩
      else if cmd = "declare-fun" then
        match rest with
        | [nameNode, argListNode, tyNode] =>
            match nameNode with
            | .list _ => .error .malformed
            | .atom name =>
                match argListNode with
                | .atom _ => .error .malformed
                | .list [] =>
                    match tyNode with
                    | .list _ => .error .malformed
                    | .atom ty =>
                        match sortOfTypeName ty with
                        | some s =>
                            .ok ⟨envInsert name s env, [.declareVariable name s], .next⟩
                        | none => .error .malformed
                | .list (_ :: _) => .error .malformed
        | _ => .error .malformed
      else if cmd = "define-fun" then .ok ⟨env, [], .next⟩
      else if cmd = "assert" then
        match rest with
        | [a] =>
            match toSMTUtilExpression a env with
            | .ok ex => .ok ⟨env, [.addAssertion ex], .next⟩
            | .error err => .error err
        | _ => .error .malformed
      else if cmd = "set-logic" then .ok ⟨env, [], .next⟩
      else if cmd = "check-sat" then .ok ⟨env, [.check], .next⟩
      else if cmd = "exit" then .ok ⟨env, [], .halt⟩
      else .error .unknownCommand) := rfl

theorem dispatch_declare_eq (env : Env) (rest : List SExpr) :
    dispatch env (.list (.atom "declare-fun" :: rest)) =
      (match rest with
      | [nameNode, argListNode, tyNode] =>
          match nameNode with
          | .list _ => .error .malformed
          | .atom name =>
              match argListNode with
              | .atom _ => .error .malformed
              | .list [] =>
                  match tyNode with
                  | .list _ => .error .malformed
                  | .atom ty =>
                      match sortOfTypeName ty with
                      | some s =>
                          .ok ⟨envInsert name s env, [.declareVariable name s], .next⟩
                      | none => .error .malformed
              | .list (_ :: _) => .error .malformed
      | _ => .error .malformed) := rfl

theorem dispatch_exit_eq (env : Env) (rest : List SExpr) :
    dispatch env (.list (.atom "exit" :: rest)) = .ok ⟨env, [], .halt⟩ := rfl

theorem dispatch_declare_iff (env : Env) (rest : List SExpr) (out : DispatchOut) :
    dispatch env (.list (.atom "declare-fun" :: rest)) = .ok out ↔
      ∃ name ty s, rest = [.atom name, .list [], .atom ty] ∧
        sortOfTypeName ty = some s ∧
        out = ⟨envInsert name s env, [.declareVariable name s], .next⟩ := by
  rw [dispatch_declare_eq]
  rcases rest with _ | ⟨n1, _ | ⟨n2, _ | ⟨n3, _ | ⟨n4, rest4⟩⟩⟩⟩
  · simp
  · simp
  · simp
  · cases n1 with
    | list l1 => simp
    | atom name =>
        cases n2 with
        | atom a2 => simp
        | list l2 =>
            cases l2 with
            | cons x xs => simp
            | nil =>
                cases n3 with
                | list l3 => simp
                | atom ty =>
                    cases hty : sortOfTypeName ty with
                    | none =>
                        simp only [hty]
                        constructor
                        · intro h
                          cases h
                        · rintro ⟨name2, ty2, s2, heq, hs2, _⟩
                          simp only [List.cons.injEq, SExpr.atom.injEq,
                            SExpr.list.injEq, and_true] at heq
                          obtain ⟨h1, _, h3⟩ := heq
                          rw [← h3] at hs2
                          rw [hty] at hs2
                          cases hs2
                    | some s =>
                        simp only [hty]
                        constructor
                        · intro h
                          cases h
                          exact ⟨name, ty, s, rfl, hty, rfl⟩
                        · rintro ⟨name2, ty2, s2, heq, hs2, hout⟩
                          simp only [List.cons.injEq, SExpr.atom.injEq,
                            SExpr.list.injEq, and_true] at heq
                          obtain ⟨h1, _, h3⟩ := heq
                          subst h1
                          rw [← h3] at hs2
                          rw [hty] at hs2
                          cases hs2
                          rw [hout]
  · simp

theorem dispatch_env_unchanged {env : Env} {e : SExpr} {out : DispatchOut}
    (h : dispatch env e = .ok out) :
    out.env = env ∨ ∃ rest, e = .list (.atom "declare-fun" :: rest) := by
  cases e with
  | atom a => simp [dispatch] at h
  | list items =>
      cases items with
      | nil => simp [dispatch] at h
      | cons x0 rest =>
          cases x0 with
          | list l0 => simp [dispatch] at h
          | atom cmd =>
              rw [dispatch_cmd_eq] at h
              by_cases h1 : cmd = "set-info"
              · rw [if_pos h1] at h
                cases h
                exact Or.inl rfl
              · rw [if_neg h1] at h
                by_cases h2 : cmd = "declare-fun"
                · subst h2
                  exact Or.inr ⟨rest, rfl⟩
                · rw [if_neg h2] at h
                  by_cases h3 : cmd = "define-fun"
                  · rw [if_pos h3] at h
                    cases h
                    exact Or.inl rfl
                  · rw [if_neg h3] at h
                    by_cases h4 : cmd = "assert"
                    · rw [if_pos h4] at h
                      rcases rest with _ | ⟨a, _ | ⟨b, rest2⟩⟩
                      · cases h
                      · have h9 : (match toSMTUtilExpression a env with
                            | Except.ok ex =>
                                Except.ok (⟨env, [.addAssertion ex], .next⟩ : DispatchOut)
                            | Except.error err => Except.error err) = .ok out := h
                        cases ht : toSMTUtilExpression a env with
                        | ok ex =>
                            rw [ht] at h9
                            cases h9
                            exact Or.inl rfl
                        | error err =>
                            rw [ht] at h9
                            cases h9
                      · cases h
                    · rw [if_neg h4] at h
                      by_cases h5 : cmd = "set-logic"
                      · rw [if_pos h5] at h
                        cases h
                        exact Or.inl rfl
                      · rw [if_neg h5] at h
                        by_cases h6 : cmd = "check-sat"
                        · rw [if_pos h6] at h
                          cases h
                          exact Or.inl rfl
                        · rw [if_neg h6] at h
                          by_cases h7 : cmd = "exit"
                          · rw [if_pos h7] at h
                            cases h
                            exact Or.inl rfl
                          · rw [if_neg h7] at h
                            cases h

theorem parseRational_strip (t : List Char) (ht : t ≠ []) :
    parseRational (String.mk (t ++ ['.', '0'])) = parseRational (String.mk t) := by
  unfold parseRational
  have h3 : (String.mk (t ++ ['.', '0'])).data.reverse = '0' :: '.' :: t.reverse := by
    simp
  rw [h3]
  obtain ⟨c, r, hcr⟩ : ∃ c r, (String.mk t).data.reverse = c :: r := by
    cases hr : (String.mk t).data.reverse with
    | nil =>
        exact absurd (by simpa using congrArg List.reverse hr) ht
    | cons c r => exact ⟨c, r, rfl⟩
  rw [hcr]
  rfl

theorem toSMT_atom_numeric {env : Env} {s : String} {c : Char} {cs : List Char} {v : Nat}
    (hs : s.data = c :: cs) (hd : (isDigitChar c || c = '.') = true)
    (hv : parseRational s = some v) :
    toSMTUtilExpression (.atom s) env = .ok ⟨Nat.repr v, [], .real⟩ := by
  rw [toSMTUtilExpression.eq_def]
  simp only [hs, hd, hv, if_true]

theorem parseListRun_no_paren :
    ∀ n : Nat, ∀ l : List Char, l.length ≤ n → ')' ∉ l → nulChar ∉ l →
      (parseListRun l).2 = [] := by
  intro n
  induction n with
  | zero =>
      intro l hl _ _
      have hnil : l = [] := List.length_eq_zero.mp (by omega)
      rw [hnil, parseListRun_nil]
  | succ n ih =>
      intro l hl hp hn
      cases l with
      | nil => rw [parseListRun_nil]
      | cons c t =>
          have hc1 : c ≠ ')' := fun h => hp (by rw [← h]; exact List.mem_cons_self c t)
          have hc2 : c ≠ nulChar := fun h => hn (by rw [← h]; exact List.mem_cons_self c t)
          rw [parseListRun_go t hc1 hc2]
          have hsuf : skipWs (parseExpression (c :: t)).2 <:+ c :: t :=
            (skipWs_suffix _).trans (parseExpression_suffix (c :: t))
          have hstrict := parseExpression_strict t hc1
          have hskl := skipWs_length (parseExpression (c :: t)).2
          exact ih (skipWs (parseExpression (c :: t)).2)
            (by simp only [List.length_cons] at hl hstrict; omega)
            (fun h => hp (hsuf.subset h)) (fun h => hn (hsuf.subset h))

theorem skipWs_append (l m : List Char) :
    skipWs (l ++ m) = if skipWs l = [] then skipWs m else skipWs l ++ m := by
  induction l with
  | nil => simp [skipWs]
  | cons c t ih =>
      by_cases h : isWhiteSpaceChar c
      · rw [List.cons_append, skipWs_cons_ws _ h, skipWs_cons_ws t h, ih]
      · rw [List.cons_append, skipWs_cons_not_ws _ h, skipWs_cons_not_ws t h]
        simp

theorem takePlain_append (l m : List Char) :
    takePlain (l ++ m) =
      if (takePlain l).2 = [] then ((takePlain l).1 ++ (takePlain m).1, (takePlain m).2)
      else ((takePlain l).1, (takePlain l).2 ++ m) := by
  induction l with
  | nil => simp [takePlain]
  | cons c t ih =>
      rw [List.cons_append]
      by_cases h : isWhiteSpaceChar c || c = '(' || c = ')'
      · have h1 : takePlain (c :: (t ++ m)) = ([], c :: (t ++ m)) := by
          simp [takePlain, h]
        have h2 : takePlain (c :: t) = ([], c :: t) := by
          simp [takePlain, h]
        rw [h1, h2]
        simp
      · have hw : ¬ isWhiteSpaceChar c := by
          intro hww
          exact h (by simp [hww])
        have hp : c ≠ '(' := fun hh => h (by simp [hh])
        have hq : c ≠ ')' := fun hh => h (by simp [hh])
        rw [takePlain_cons_go _ hw hp hq, takePlain_cons_go t hw hp hq, ih]
        by_cases h2 : (takePlain t).2 = []
        · simp [h2]
        · simp [h2]

/-- Appending the missing `)` after an expression: when the parse of `l`
stopped before end of input the `)` lands in the remainder untouched;
when the parse consumed all of `l` the parsed node is unchanged and the
`)` is either swallowed by an innermost unterminated list or left over. -/
def PExt (l : List Char) : Prop :=
  ((parseExpression l).2 ≠ [] →
    parseExpression (l ++ [')']) =
      ((parseExpression l).1, (parseExpression l).2 ++ [')'])) ∧
  ((parseExpression l).2 = [] →
    (parseExpression (l ++ [')'])).1 = (parseExpression l).1 ∧
    ((parseExpression (l ++ [')'])).2 = [] ∨ (parseExpression (l ++ [')'])).2 = [')']))

/-- The corresponding statement for the sub-expression loop. -/
def QExt (l : List Char) : Prop :=
  (parseListRun (l ++ [')'])).1 = (parseListRun l).1 ∧
  ((parseListRun (l ++ [')'])).2 = [] ∨ (parseListRun (l ++ [')'])).2 = [')'])

theorem parse_close_ext :
    ∀ n : Nat,
      (∀ l : List Char, l.length ≤ n → ')' ∉ l → '|' ∉ l → nulChar ∉ l → PExt l) ∧
      (∀ l : List Char, l.length ≤ n → ')' ∉ l → '|' ∉ l → nulChar ∉ l → QExt l) := by
  intro n
  induction n using Nat.strong_induction_on with
  | _ n ih =>
    have hP : ∀ l : List Char, l.length ≤ n → ')' ∉ l → '|' ∉ l → nulChar ∉ l → PExt l := by
      intro l hlen hp hpipe hnul
      cases hsw : skipWs l with
      | nil =>
          have hswa : skipWs (l ++ [')']) = [')'] := by
            rw [skipWs_append, hsw]
            decide
          have e1 : parseExpression l =
              (.atom (String.mk (parseToken l).1), (parseToken l).2) :=
            parseExpression_eq_atom (by rw [hsw]; simp)
          have f1 : parseToken l = ([], []) := by
            unfold parseToken
            rw [hsw]
          have e2 : parseExpression (l ++ [')']) =
              (.atom (String.mk (parseToken (l ++ [')'])).1),
               (parseToken (l ++ [')'])).2) :=
            parseExpression_eq_atom (by rw [hswa]; decide)
          have f2 : parseToken (l ++ [')']) = ([], [')']) := by
            unfold parseToken
            rw [hswa]
            rfl
          constructor
          · intro hne
            rw [e1, f1] at hne
            simp at hne
          · intro _
            rw [e1, e2, f1, f2]
            exact ⟨rfl, Or.inr rfl⟩
      | cons c t =>
          have hsub : c :: t <:+ l := hsw ▸ skipWs_suffix l
          have hcp : c ≠ ')' := fun h =>
            hp (hsub.subset (by rw [h]; exact List.mem_cons_self _ _))
          have hcpipe : c ≠ '|' := fun h =>
            hpipe (hsub.subset (by rw [h]; exact List.mem_cons_self _ _))
          have hswa : skipWs (l ++ [')']) = c :: (t ++ [')']) := by
            rw [skipWs_append, hsw]
            simp
          have htlen : t.length < l.length := by
            have h := hsub.length_le
            simp only [List.length_cons] at h
            omega
          by_cases hcl : c = '('
          · subst hcl
            have e1 := parseExpression_eq_list hsw
            have e2 : parseExpression (l ++ [')']) =
                (.list (parseListRun (t ++ [')'])).1,
                 dropParen (parseListRun (t ++ [')'])).2) :=
              parseExpression_eq_list hswa
            have hsubt : t <:+ l := (List.suffix_cons '(' t).trans hsub
            have hn1 : 1 ≤ n := by omega
            have hQt : QExt t :=
              (ih (n - 1) (by omega)).2 t (by omega)
                (fun h => hp (hsubt.subset h))
                (fun h => hpipe (hsubt.subset h))
                (fun h => hnul (hsubt.subset h))
            have hnp_t : (parseListRun t).2 = [] :=
              parseListRun_no_paren t.length t (le_refl _)
                (fun h => hp (hsubt.subset h))
                (fun h => hnul (hsubt.subset h))
            constructor
            · intro hne
              rw [e1, hnp_t] at hne
              simp [dropParen] at hne
            · intro _
              rw [e1, e2]
              refine ⟨by rw [hQt.1], ?_⟩
              rcases hQt.2 with h | h
              · rw [h]
                exact Or.inl rfl
              · rw [h]
                exact Or.inl rfl
          · have e1 : parseExpression l =
                (.atom (String.mk (parseToken l).1), (parseToken l).2) :=
              parseExpression_eq_atom (by rw [hsw]; simp [hcl])
            have e2 : parseExpression (l ++ [')']) =
                (.atom (String.mk (parseToken (l ++ [')'])).1),
                 (parseToken (l ++ [')'])).2) :=
              parseExpression_eq_atom (by rw [hswa]; simp [hcl])
            have f1 : parseToken l = takePlain (c :: t) := by
              unfold parseToken
              rw [hsw]
              simp [hcpipe]
            have f2 : parseToken (l ++ [')']) = takePlain (c :: (t ++ [')'])) := by
              unfold parseToken
              rw [hswa]
              simp [hcpipe]
            have g := takePlain_append (c :: t) [')']
            rw [List.cons_append] at g
            by_cases hdone : (takePlain (c :: t)).2 = []
            · rw [if_pos hdone] at g
              have g2 : takePlain (c :: (t ++ [')'])) = ((takePlain (c :: t)).1, [')']) := by
                rw [g]
                simp [takePlain]
              constructor
              · intro hne
                rw [e1, f1] at hne
                exact absurd hdone hne
              · intro _
                rw [e1, e2, f1, f2, g2]
                exact ⟨rfl, Or.inr rfl⟩
            · rw [if_neg hdone] at g
              constructor
              · intro _
                rw [e1, e2, f1, f2, g]
              · intro heq
                rw [e1, f1] at heq
                exact absurd heq hdone
    have hQ : ∀ l : List Char, l.length ≤ n → ')' ∉ l → '|' ∉ l → nulChar ∉ l → QExt l := by
      intro l hlen hp hpipe hnul
      cases l with
      | nil =>
          have hca : ([] : List Char) ++ [')'] = [')'] := rfl
          constructor
          · rw [parseListRun_nil, hca, parseListRun_stop [] (Or.inl rfl)]
          · rw [hca, parseListRun_stop [] (Or.inl rfl)]
            exact Or.inr rfl
      | cons c t =>
          have hc1 : c ≠ ')' := fun h => hp (by rw [← h]; exact List.mem_cons_self _ _)
          have hc2 : c ≠ nulChar := fun h => hnul (by rw [← h]; exact List.mem_cons_self _ _)
          have hPl : PExt (c :: t) := hP (c :: t) hlen hp hpipe hnul
          have hgo1 := parseListRun_go t hc1 hc2
          have hgo2 := parseListRun_go (t ++ [')']) hc1 hc2
          have hca : (c :: t) ++ [')'] = c :: (t ++ [')']) := rfl
          have hswnil : skipWs ([] : List Char) = [] := rfl
          have hswp : skipWs [')'] = [')'] := by decide
          by_cases h2 : (parseExpression (c :: t)).2 = []
          · obtain ⟨hx1, hx2⟩ := hPl.2 h2
            rw [hca] at hx1 hx2
            constructor
            · rw [hca, hgo2, hgo1, hx1, h2, hswnil, parseListRun_nil]
              rcases hx2 with hre | hre
              · rw [hre, hswnil, parseListRun_nil]
              · rw [hre, hswp, parseListRun_stop [] (Or.inl rfl)]
            · rw [hca, hgo2]
              rcases hx2 with hre | hre
              · rw [hre, hswnil, parseListRun_nil]
                exact Or.inl rfl
              · rw [hre, hswp, parseListRun_stop [] (Or.inl rfl)]
                exact Or.inr rfl
          · have hx := hPl.1 h2
            rw [hca] at hx
            have hx1 : (parseExpression (c :: (t ++ [')']))).1 =
                (parseExpression (c :: t)).1 := by rw [hx]
            have hx2 : (parseExpression (c :: (t ++ [')']))).2 =
                (parseExpression (c :: t)).2 ++ [')'] := by rw [hx]
            have hswapp := skipWs_append (parseExpression (c :: t)).2 [')']
            by_cases hsr : skipWs (parseExpression (c :: t)).2 = []
            · rw [if_pos hsr, hswp] at hswapp
              constructor
              · rw [hca, hgo2, hgo1, hx1, hx2, hswapp, hsr, parseListRun_nil,
                  parseListRun_stop [] (Or.inl rfl)]
              · rw [hca, hgo2, hx2, hswapp, parseListRun_stop [] (Or.inl rfl)]
                exact Or.inr rfl
            · rw [if_neg hsr] at hswapp
              have hrlen : (parseExpression (c :: t)).2.length < (c :: t).length :=
                parseExpression_strict t hc1
              have hsubr : skipWs (parseExpression (c :: t)).2 <:+ c :: t :=
                (skipWs_suffix _).trans (parseExpression_suffix (c :: t))
              have hskl := skipWs_length (parseExpression (c :: t)).2
              have hQr : QExt (skipWs (parseExpression (c :: t)).2) :=
                (ih (n - 1) (by simp only [List.length_cons] at hlen hrlen; omega)).2
                  (skipWs (parseExpression (c :: t)).2)
                  (by simp only [List.length_cons] at hlen hrlen; omega)
                  (fun h => hp (hsubr.subset h))
                  (fun h => hpipe (hsubr.subset h))
                  (fun h => hnul (hsubr.subset h))
              constructor
              · rw [hca, hgo2, hgo1, hx1, hx2, hswapp, hQr.1]
              · rw [hca, hgo2, hx2, hswapp]
                exact hQr.2
    exact ⟨hP, hQ⟩

/-- Closing an unterminated list: with the missing `)` appended the parse
returns the same node; the appended `)` is consumed by the innermost
unterminated list, and the outer result and remainder are identical. -/
theorem parseExpression_as_if_closed (l : List Char) (hp : ')' ∉ l)
    (hpipe : '|' ∉ l) (hnul : nulChar ∉ l) :
    parseExpression ('(' :: (l ++ [')'])) = (.list (parseListRun l).1, []) ∧
    parseExpression ('(' :: l) = (.list (parseListRun l).1, []) := by
  have hQ : QExt l := (parse_close_ext l.length).2 l (le_refl _) hp hpipe hnul
  have hnp : (parseListRun l).2 = [] :=
    parseListRun_no_paren l.length l (le_refl _) hp hnul
  have hsw1 : skipWs ('(' :: (l ++ [')'])) = '(' :: (l ++ [')']) :=
    skipWs_cons_not_ws _ (by decide)
  have hsw2 : skipWs ('(' :: l) = '(' :: l :=
    skipWs_cons_not_ws _ (by decide)
  constructor
  · rw [parseExpression_eq_list hsw1, hQ.1]
    rcases hQ.2 with h | h
    · rw [h]
      rfl
    · rw [h]
      rfl
  · rw [parseExpression_eq_list hsw2, hnp]
    rfl

/-! ### The claims -/

/-- C1: in a `let` form, every binding value is elaborated against the
outer environment `E` itself — the `toSMTBindings` loop passes the fixed
first argument `env` to each value elaboration, and its result list does
not depend on the accumulated `subSorts` copy (second conjunct) — while
only the body is elaborated against the extension of the copied
environment with all bound names (first conjunct).  Consequently
elaborating `(let ((x 1) (y x)) y)` in an empty environment fails with a
clean `malformed` error (`map::at` on the absent `x`), third conjunct. -/
theorem claim_C1 :
    (∀ (env : Env) (bs : List SExpr) (body : SExpr),
      toSMTUtilExpression (.list [.atom "let", .list bs, body]) env =
        match toSMTBindings env bs env with
        | .error e => .error e
        | .ok (args, subSorts) =>
            match toSMTUtilExpression body subSorts with
            | .error e => .error e
            | .ok b => .ok ⟨"let", args ++ [b], b.sort⟩) ∧
    (∀ (env : Env) (bs : List SExpr) (ss1 ss2 : Env),
      Except.map Prod.fst (toSMTBindings env bs ss1) =
        Except.map Prod.fst (toSMTBindings env bs ss2)) ∧
    toSMTUtilExpression
      (.list [.atom "let",
        .list [.list [.atom "x", .atom "1"], .list [.atom "y", .atom "x"]],
        .atom "y"]) ([] : Env) = .error .malformed :=
  ⟨toSMT_let_eq, toSMTBindings_fst_indep, rfl⟩

/-- C2: for a list form headed by an operator atom other than `let`, the
remaining elements are elaborated in order against the current
environment (the argument loop is `mapM` of the elaborator over the
arguments, first conjunct), and the resulting sort is Boolean when the
operator is in `{and, or, not, =, <, >, <=, >=, =>}` and otherwise the
sort of the last elaborated argument (second and third conjuncts). -/
theorem claim_C2 :
    (∀ (rest : List SExpr) (env : Env),
      toSMTArgs rest env = rest.mapM (fun x => toSMTUtilExpression x env)) ∧
    (∀ (env : Env) (op : String) (rest : List SExpr) (args : List SMTExpr) (a : SMTExpr),
      op ≠ "let" → toSMTArgs rest env = .ok args → args.getLast? = some a →
      toSMTUtilExpression (.list (.atom op :: rest)) env =
        .ok ⟨op, args, if op ∈ boolOperators then .bool else a.sort⟩) ∧
    (∀ (env : Env) (op : String) (rest : List SExpr) (args : List SMTExpr),
      op ∈ boolOperators → toSMTArgs rest env = .ok args →
      toSMTUtilExpression (.list (.atom op :: rest)) env = .ok ⟨op, args, .bool⟩) :=
  ⟨toSMTArgs_eq_mapM,
   fun _ _ _ _ _ hop hargs hlast => toSMT_app_ok hop hargs hlast,
   fun _ _ _ _ hb hargs => toSMT_app_bool_ok hb hargs⟩

/-- C2 witness: `(+ 1 2)` elaborates to a `+` application of sort Real
(the sort of the last argument), and `(< 1 2)` to one of sort Bool. -/
theorem claim_C2_witness :
    toSMTUtilExpression (.list [.atom "+", .atom "1", .atom "2"]) ([] : Env) =
      .ok ⟨"+", [⟨"1", [], .real⟩, ⟨"2", [], .real⟩], .real⟩ ∧
    toSMTUtilExpression (.list [.atom "<", .atom "1", .atom "2"]) ([] : Env) =
      .ok ⟨"<", [⟨"1", [], .real⟩, ⟨"2", [], .real⟩], .bool⟩ :=
  ⟨claim_C2.2.1 ([] : Env) "+" [.atom "1", .atom "2"]
      [⟨"1", [], .real⟩, ⟨"2", [], .real⟩] ⟨"2", [], .real⟩ (by decide) rfl rfl,
   claim_C2.2.2 ([] : Env) "<" [.atom "1", .atom "2"]
      [⟨"1", [], .real⟩, ⟨"2", [], .real⟩] (by decide) rfl⟩

/-- C3: a numeric-looking atom (first character a digit or `.`) whose
numeral parses elaborates to a literal of sort Real whose name is the
parsed value (first conjunct); `parseRational` strips a trailing `.0`
before exact integer parsing (second conjunct); in particular `1.0` and
`1` elaborate to the same literal expression (third conjunct). -/
theorem claim_C3 :
    (∀ (env : Env) (s : String) (c : Char) (cs : List Char) (v : Nat),
      s.data = c :: cs → (isDigitChar c || c = '.') = true →
      parseRational s = some v →
      toSMTUtilExpression (.atom s) env = .ok ⟨Nat.repr v, [], .real⟩) ∧
    (∀ t : List Char, t ≠ [] →
      parseRational (String.mk (t ++ ['.', '0'])) = parseRational (String.mk t)) ∧
    (∀ env : Env,
      toSMTUtilExpression (.atom "1.0") env = toSMTUtilExpression (.atom "1") env) :=
  ⟨fun _ _ _ _ _ hs hd hv => toSMT_atom_numeric hs hd hv,
   parseRational_strip,
   fun _ => rfl⟩

/-- C3 witness: the atom `42.0` elaborates to the Real literal `42`. -/
theorem claim_C3_witness :
    toSMTUtilExpression (.atom "42.0") ([] : Env) = .ok ⟨"42", [], .real⟩ :=
  claim_C3.1 ([] : Env) "42.0" '4' "2.0".data 42 rfl (by decide) rfl

/-- C4 counterexample: the input `(set-logic QF_LRA)` followed by a
single trailing newline — one well-formed top-level form, no `exit` —
does not terminate cleanly: the loop re-enters on the nonempty whitespace
remainder, parses an empty atom, and `get<vector<...>>` on it aborts the
run (first conjunct); without the trailing newline the very same form
sequence exits cleanly with code 0 (second conjunct). -/
theorem claim_C4_counterexample :
    solsmtRun "(set-logic QF_LRA)\n" = .error .malformed ∧
    solsmtRun "(set-logic QF_LRA)" = .ok [] :=
  ⟨rfl, rfl⟩

/-- C4 (amended): on input that is a sequence of well-formed, successfully
dispatching, non-`exit` top-level forms with no trailing characters after
the last form (`GoodRun`), the driver parses and dispatches one form per
iteration until the input is exhausted and returns 0 (`.ok`); input-length
fuel suffices because every dispatched form is a list and parsing a list
strictly consumes input. -/
theorem claim_C4 :
    (∀ (env : Env) (l : List Char), GoodRun env l →
      ∀ acc : List SolverCall, ∃ cs, runF (l.length + 1) env acc l = .ok cs) ∧
    (∀ input : String, GoodRun ([] : Env) (removeComments input.data) →
      ∃ cs, solsmtRun input = .ok cs) :=
  ⟨fun _ l hg acc => runF_goodRun hg (l.length + 1) acc (by omega),
   fun input hg => runF_goodRun hg ((removeComments input.data).length + 1) [] (by omega)⟩

/-- C4 witness: `(set-logic QF_LRA)` with no trailing characters is a
`GoodRun` input and the driver accepts it with exit code 0. -/
theorem claim_C4_witness :
    GoodRun ([] : Env) (removeComments "(set-logic QF_LRA)".data) ∧
    ∃ cs, solsmtRun "(set-logic QF_LRA)" = .ok cs := by
  have hg : GoodRun ([] : Env) (removeComments "(set-logic QF_LRA)".data) := by
    apply GoodRun.step ([] : Env) (removeComments "(set-logic QF_LRA)".data)
      ⟨([] : Env), [], .next⟩ (by decide) rfl rfl
    exact GoodRun.done ([] : Env)
  exact ⟨hg, claim_C4.2 "(set-logic QF_LRA)" hg⟩

/-- C5: when the sub-expression loop of a list opened by `(` reaches end
of input without a closing `)`, `parseExpression` silently returns the
list of sub-nodes parsed so far with all input consumed (first conjunct);
a suffix containing neither `)` nor a pipe nor a NUL byte always ends
this way, and the result is then exactly the one obtained had the missing
`)` been present (second conjunct).  No failure is ever raised: the
functions are total. -/
theorem claim_C5 :
    (∀ l : List Char, (parseListRun l).2 = [] →
      parseExpression ('(' :: l) = (.list (parseListRun l).1, [])) ∧
    (∀ l : List Char, ')' ∉ l → '|' ∉ l → nulChar ∉ l →
      (parseListRun l).2 = [] ∧
      parseExpression ('(' :: l) = (.list (parseListRun l).1, []) ∧
      parseExpression (('(' :: l) ++ [')']) = (.list (parseListRun l).1, []) ∧
      parseExpression ('(' :: l) = parseExpression (('(' :: l) ++ [')'])) := by
  have h1 : ∀ l : List Char, (parseListRun l).2 = [] →
      parseExpression ('(' :: l) = (.list (parseListRun l).1, []) := by
    intro l h
    have hsw : skipWs ('(' :: l) = '(' :: l :=
      skipWs_cons_not_ws l (by decide)
    rw [parseExpression_eq_list hsw, h]
    rfl
  refine ⟨h1, fun l hp hpipe hn => ?_⟩
  have h2 := parseListRun_no_paren l.length l (le_refl _) hp hn
  have h3 := parseExpression_as_if_closed l hp hpipe hn
  refine ⟨h2, h1 l h2, h3.1, ?_⟩
  rw [h3.2]
  exact h3.1.symm

/-- C5 witness: the unterminated `(ab (c` is accepted silently as the
list it had parsed so far, consuming all input — the same result as the
closed `(ab (c)`. -/
theorem claim_C5_witness :
    (parseListRun "ab (c".data).2 = [] ∧
    parseExpression ('(' :: "ab (c".data) =
      (.list (parseListRun "ab (c".data).1, []) ∧
    parseExpression ('(' :: "ab (c".data) =
      parseExpression (('(' :: "ab (c".data) ++ [')']) :=
  ⟨rfl, claim_C5.1 "ab (c".data rfl,
   (claim_C5.2 "ab (c".data (by decide) (by decide) (by decide)).2.2.2⟩

/-- C6: parsing is restartable.  On the cursor representation
(`m_data`, `m_pos`), one `parseExpression` call from any position `pos`
advances the cursor monotonically and within bounds, the input splits as
consumed prefix ++ `remainingInput()`, and a fresh parser run on the
remaining input from `pos` produces exactly the same node and the same
remaining suffix — so re-parsing from the reported boundary agrees with
continuing the single pass, form by form. -/
theorem claim_C6 :
    ∀ (data : List Char) (pos : Nat), pos ≤ data.length →
      pos ≤ (parseExpressionPos data pos).2 ∧
      (parseExpressionPos data pos).2 ≤ data.length ∧
      data = data.take (parseExpressionPos data pos).2 ++
        List.drop (parseExpressionPos data pos).2 data ∧
      parseExpression (List.drop pos data) =
        ((parseExpressionPos data pos).1,
         List.drop (parseExpressionPos data pos).2 data) := by
  intro data pos h
  obtain ⟨h1, h2, h3, h4⟩ := parseExpressionPos_spec data pos h
  refine ⟨h3, h4, (List.take_append_drop _ data).symm, ?_⟩
  have hpair : parseExpression (List.drop pos data) =
      ((parseExpression (List.drop pos data)).1,
       (parseExpression (List.drop pos data)).2) := rfl
  rw [hpair, ← h1, ← h2]

/-- C6 witness: in `(a b) (c d)`, restarting from position 5 (the
boundary after the first form) parses `(c d)` exactly as the single pass
does. -/
theorem claim_C6_witness :
    5 ≤ "(a b) (c d)".data.length ∧
    (5 ≤ (parseExpressionPos "(a b) (c d)".data 5).2 ∧
     (parseExpressionPos "(a b) (c d)".data 5).2 ≤ "(a b) (c d)".data.length ∧
     "(a b) (c d)".data =
       "(a b) (c d)".data.take (parseExpressionPos "(a b) (c d)".data 5).2 ++
         List.drop (parseExpressionPos "(a b) (c d)".data 5).2 "(a b) (c d)".data ∧
     parseExpression (List.drop 5 "(a b) (c d)".data) =
       ((parseExpressionPos "(a b) (c d)".data 5).1,
        List.drop (parseExpressionPos "(a b) (c d)".data 5).2 "(a b) (c d)".data)) :=
  ⟨by decide, claim_C6 "(a b) (c d)".data 5 (by decide)⟩

/-- C7: a `declare-fun` form dispatches successfully exactly when it has
four elements whose second is an atom, third is an empty list and fourth
is the atom `Real` or `Bool`; on success the global sort environment is
extended with the name mapped to the resolved sort and exactly one
`declareVariable` solver call with that name and sort is made; any other
shape is a fatal error (the dispatch is total, so a non-`ok` result is an
`error`). -/
theorem claim_C7 :
    (∀ (env : Env) (rest : List SExpr) (out : DispatchOut),
      dispatch env (.list (.atom "declare-fun" :: rest)) = .ok out ↔
        ∃ name ty s, rest = [.atom name, .list [], .atom ty] ∧
          sortOfTypeName ty = some s ∧
          out = ⟨envInsert name s env, [.declareVariable name s], .next⟩) ∧
    sortOfTypeName "Real" = some SmtSort.real ∧
    sortOfTypeName "Bool" = some SmtSort.bool ∧
    (∀ (ty : String) (s : SmtSort), sortOfTypeName ty = some s →
      ty = "Real" ∨ ty = "Bool") := by
  refine ⟨dispatch_declare_iff, rfl, rfl, fun ty s h => ?_⟩
  unfold sortOfTypeName at h
  split_ifs at h with h1 h2
  · exact Or.inl h1
  · exact Or.inr h2

/-- C7 witness: `(declare-fun x () Bool)` dispatches successfully,
extending the environment with `x ↦ Bool` and calling
`declareVariable("x", Bool)` exactly once. -/
theorem claim_C7_witness :
    dispatch ([] : Env)
      (.list [.atom "declare-fun", .atom "x", .list [], .atom "Bool"]) =
      .ok ⟨envInsert "x" .bool ([] : Env), [.declareVariable "x" .bool], .next⟩ :=
  (claim_C7.1 ([] : Env) [.atom "x", .list [], .atom "Bool"]
    ⟨envInsert "x" .bool ([] : Env), [.declareVariable "x" .bool], .next⟩).mpr
    ⟨"x", "Bool", .bool, rfl, rfl, rfl⟩

/-- C8: once a dispatched form halts the driver (`exit` is the only such
command, second conjunct), the run returns 0 immediately with only the
calls made so far: the result does not depend on the remaining input and
one unit of fuel already suffices, so no later form is parsed or
dispatched and no further solver call occurs. -/
theorem claim_C8 :
    (∀ (fuel : Nat) (env : Env) (acc : List SolverCall) (l : List Char)
        (out : DispatchOut),
      l ≠ [] →
      dispatch env (parseExpression l).1 = .ok out →
      out.control = .halt →
      runF (fuel + 1) env acc l = .ok (acc ++ out.calls) ∧
      runF (fuel + 1) env acc l = runF 1 env acc l) ∧
    (∀ (env : Env) (rest : List SExpr),
      dispatch env (.list (.atom "exit" :: rest)) = .ok ⟨env, [], .halt⟩) := by
  refine ⟨fun fuel env acc l out hne hdis hctl => ?_, dispatch_exit_eq⟩
  constructor
  · exact runF_succ_halt hne hdis hctl fuel acc
  · rw [runF_succ_halt hne hdis hctl fuel acc]
    have h1 : (1 : Nat) = 0 + 1 := rfl
    rw [h1, runF_succ_halt hne hdis hctl 0 acc]

/-- C8 witness: on `(exit)(check-sat)` the driver halts at the `exit`
with exit code 0, making no solver call for the later `check-sat` no
matter how much fuel remains. -/
theorem claim_C8_witness :
    runF 7 ([] : Env) [] "(exit)(check-sat)".data = .ok [] ∧
    runF 7 ([] : Env) [] "(exit)(check-sat)".data =
      runF 1 ([] : Env) [] "(exit)(check-sat)".data :=
  claim_C8.1 6 ([] : Env) [] "(exit)(check-sat)".data
    ⟨([] : Env), [], .halt⟩ (by decide) rfl rfl

/-- C9: dispatching a form returns an environment equal to the input
environment unless the form is headed by `declare-fun` (first conjunct),
and a successful `declare-fun` extends it by exactly one binding (second
conjunct).  The elaborator itself is a pure function of the node and the
environment — mirroring the `const` reference in the C++ signature — and
the `let` branch only builds the transient extended copy
`toSMTBindings env bs env` for the body (see `claim_C1`); it has no way
to modify the caller's environment. -/
theorem claim_C9 :
    (∀ (env : Env) (e : SExpr) (out : DispatchOut),
      dispatch env e = .ok out →
      out.env = env ∨ ∃ rest, e = .list (.atom "declare-fun" :: rest)) ∧
    (∀ (env : Env) (rest : List SExpr) (out : DispatchOut),
      dispatch env (.list (.atom "declare-fun" :: rest)) = .ok out →
      ∃ name s, out.env = envInsert name s env) := by
  refine ⟨fun _ _ _ h => dispatch_env_unchanged h, fun env rest out h => ?_⟩
  obtain ⟨name, ty, s, _, _, hout⟩ := (dispatch_declare_iff env rest out).mp h
  exact ⟨name, s, by rw [hout]⟩

/-- C9 witness: dispatching `(assert (> 1 0))` leaves the environment
unchanged. -/
theorem claim_C9_witness :
    ((⟨([] : Env), [.addAssertion ⟨">", [⟨"1", [], .real⟩, ⟨"0", [], .real⟩], .bool⟩],
        .next⟩ : DispatchOut).env = ([] : Env)) ∨
      ∃ rest, SExpr.list [.atom "assert", .list [.atom ">", .atom "1", .atom "0"]] =
        .list (.atom "declare-fun" :: rest) :=
  claim_C9.1 ([] : Env)
    (.list [.atom "assert", .list [.atom ">", .atom "1", .atom "0"]])
    ⟨([] : Env), [.addAssertion ⟨">", [⟨"1", [], .real⟩, ⟨"0", [], .real⟩], .bool⟩],
      .next⟩ rfl

/-- C10 counterexample: the empty list `()` does reach the elaborator —
also end to end through `(assert ())` — and the access to its first
element is an out-of-bounds read of an empty sequence (undefined
behaviour), not a clean `MalformedExpression`. -/
theorem claim_C10_counterexample :
    toSMTUtilExpression (SExpr.list []) ([] : Env) = .error .outOfBounds ∧
    solsmtRun "(assert ())" = .error .outOfBounds :=
  ⟨rfl, rfl⟩

/-- C10 (amended): elaborating the empty list `()` reads `front()` of an
empty vector, and a zero-argument application `(f)` of an operator that
is neither `let` nor a boolean operator reads `back()` of an empty
vector — both undefined behaviour (`outOfBounds`), not a clean
`MalformedExpression` (first two conjuncts); for a boolean operator, or
when at least the last argument exists, the operator and last-argument
accesses are in bounds and elaboration succeeds (last two conjuncts). -/
theorem claim_C10 :
    (∀ env : Env, toSMTUtilExpression (.list []) env = .error .outOfBounds) ∧
    (∀ (env : Env) (op : String), op ≠ "let" → op ∉ boolOperators →
      toSMTUtilExpression (.list [.atom op]) env = .error .outOfBounds) ∧
    (∀ (env : Env) (op : String) (rest : List SExpr) (args : List SMTExpr),
      op ∈ boolOperators → toSMTArgs rest env = .ok args →
      toSMTUtilExpression (.list (.atom op :: rest)) env = .ok ⟨op, args, .bool⟩) ∧
    (∀ (env : Env) (op : String) (rest : List SExpr) (args : List SMTExpr) (a : SMTExpr),
      op ≠ "let" → toSMTArgs rest env = .ok args → args.getLast? = some a →
      toSMTUtilExpression (.list (.atom op :: rest)) env =
        .ok ⟨op, args, if op ∈ boolOperators then .bool else a.sort⟩) :=
  ⟨fun _ => rfl,
   fun _ _ hop hb => toSMT_app_empty_oob hop hb rfl rfl,
   fun _ _ _ _ hb hargs => toSMT_app_bool_ok hb hargs,
   fun _ _ _ _ _ hop hargs hlast => toSMT_app_ok hop hargs hlast⟩

/-- C10 witness: `(f)` with `f` not a boolean operator performs the
out-of-bounds `back()` read, while `(not)` (boolean operator, no
arguments) succeeds with sort Bool. -/
theorem claim_C10_witness :
    toSMTUtilExpression (.list [.atom "f"]) ([] : Env) = .error .outOfBounds ∧
    toSMTUtilExpression (.list [.atom "not"]) ([] : Env) = .ok ⟨"not", [], .bool⟩ :=
  ⟨claim_C10.2.1 ([] : Env) "f" (by decide) (by decide),
   claim_C10.2.2.1 ([] : Env) "not" [] [] (by decide) rfl⟩
